import Mathlib

/-!
Verification of the Nextfish Shashin/MCTS subsystem
(`src/nextfish-dev/Stockfish-master/src/shashin.h`, implementation part).

The development shallowly embeds the position-style classifier
(ShashinManager) and the Monte-Carlo tree search (MCTSNode / MCTSTree)
in Lean.  Doubles are modelled as real numbers where the code computes
with `sqrt`/`log`, and as rationals on the code paths whose values stay
rational (priors, simulation scores, accumulated statistics).  The
mutable board threaded by reference through the search is modelled by
explicit state passing: `do_move` advances a position, and the paired
`undo_move` is modelled by restoring the position saved at `do_move`
time (that is exactly the `StateInfo` mechanism of the engine).
-/

namespace Nextfish

/-- Shashin position styles (shashin.h, enum ShashinStyle). -/
inductive ShashinStyle where
  | HIGH_TAL
  | TAL
  | CAPABLANCA
  | PETROSIAN
  | HIGH_PETROSIAN
  | UNKNOWN_STYLE
deriving DecidableEq, Repr

/-- The static signals computed once per root position
(struct StaticShashinState).  `allPiecesCount` is declared `int` in the
source but is assigned the boolean `pos.count<ALL_PIECES>() > 20`
(line 809), so it is modelled as a `Bool`. -/
structure StaticShashinState where
  stmKingExposed : Bool
  opponentKingExposed : Bool
  isSacrificial : Bool
  kingDanger : Bool
  highMaterial : Bool
  pawnsNearPromotion : Bool
  allPiecesCount : Bool
  legalMoveCount : ℕ
deriving DecidableEq, Repr

/-- The derived signals (struct DynamicShashinState). -/
structure DynamicShashinState where
  isStrategical : Bool
  isAggressive : Bool
  isTactical : Bool
  isTacticalReactive : Bool
  isHighTal : Bool
  isComplex : Bool
  isMCTSApplicable : Bool
deriving DecidableEq, Repr

/-- ShashinManager::updateDynamicState (shashin.h lines 816-834).
`piecesCount` stands for `pos.count<ALL_PIECES>()`, read directly from
the position for the `isComplex` signal. -/
def updateDynamicState (s : StaticShashinState) (piecesCount : ℕ) :
    DynamicShashinState :=
  let isStrategical := !s.stmKingExposed && !s.opponentKingExposed
                       && !s.isSacrificial && !s.kingDanger
  let isAggressive := s.stmKingExposed || s.opponentKingExposed
                      || s.kingDanger || s.isSacrificial
  let isTactical := s.kingDanger || s.isSacrificial || s.pawnsNearPromotion
  let isTacticalReactive := s.opponentKingExposed
                            || (s.kingDanger && s.stmKingExposed)
  let isHighTal := s.stmKingExposed && s.opponentKingExposed && s.kingDanger
  let isComplex := decide (piecesCount > 16)
                   && !isStrategical && !isAggressive
  let isMCTSApplicable := isHighTal && s.allPiecesCount
                          && decide (s.legalMoveCount > 10)
  ⟨isStrategical, isAggressive, isTactical, isTacticalReactive,
   isHighTal, isComplex, isMCTSApplicable⟩

/-- ShashinManager::isMCTSApplicableByValue (shashin.h lines 907-912):
recomputes the same strict criterion from the stored state. -/
def isMCTSApplicableByValue (d : DynamicShashinState)
    (s : StaticShashinState) : Bool :=
  d.isHighTal && s.allPiecesCount && decide (s.legalMoveCount > 10)

/-- The gate at the top of ShashinManager::runMCTSSearch
(shashin.h lines 973-976): the tree runs only when the UCI option is on
and the applicability predicate holds. -/
def runMCTSGate (useMCTS : Bool) (d : DynamicShashinState)
    (s : StaticShashinState) : Bool :=
  useMCTS && isMCTSApplicableByValue d s

/-- ShashinManager::classifyPosition (shashin.h lines 847-861);
`fortress` stands for the `isFortress(pos)` test. -/
def classifyPosition (d : DynamicShashinState) (fortress : Bool) :
    ShashinStyle :=
  if d.isHighTal then .HIGH_TAL
  else if d.isAggressive && !d.isStrategical then .TAL
  else if d.isStrategical && d.isAggressive then .CAPABLANCA
  else if d.isStrategical && !d.isAggressive then .PETROSIAN
  else if fortress then .HIGH_PETROSIAN
  else .UNKNOWN_STYLE

/-- Modelled from the spec: the gating formula as the specification
states it, `mctsApplicable = (highTal ∨ (aggressive ∧ tactical)) ∧
legalMoveCount > 14`.  Used only to compare the specified predicate
with the one the code computes. -/
def mctsApplicableSpec (highTal aggressive tactical : Bool)
    (legalMoveCount : ℕ) : Bool :=
  (highTal || (aggressive && tactical)) && decide (legalMoveCount > 14)

/-!  ## The board adapter

The board/move engine (Stockfish `Position`) is external to the MCTS
core; it is modelled as an abstract game.  Moves are numbers; the
`Move::none()` sentinel is `Option.none`.  `doMove` is `do_move`; the
queries are the ones the tree actually performs on a position.
`undo_move` restores the `StateInfo` saved by the paired `do_move`,
which the embedding models by keeping the pre-move position on the
undo stack. -/
structure Game where
  Pos : Type
  legalMoves : Pos → List ℕ
  doMove : Pos → ℕ → Pos
  sideToMove : Pos → Bool
  inCheck : Pos → Bool
  isCapture : Pos → ℕ → Bool
  capturedPiece : Pos → ℕ → Option ℕ
  givesCheck : Pos → ℕ → Bool
  isPromotion : Pos → ℕ → Bool
  see : Pos → ℕ → ℤ
  evalHeuristic : Pos → ℤ

/-!  ## The search tree

struct MCTSNode (shashin.h lines 46-66).  The atomic fields
`visits`/`totalScore` are plain values here: the shipped call path is
single threaded, so the compare-and-swap accumulation of
`backpropagate` is equivalent to a plain addition.  `totalScore` and
`priorScore` stay rational along every code path, so they are embedded
as `ℚ`.  The unused atomic `prior` mirror of `priorScore` is dropped.
A selected node is identified by the list of child indices leading to
it from the root (the functional image of the `parent` pointers). -/
inductive MCTSNode : Type where
  | mk (move : Option ℕ) (visits : ℕ) (totalScore : ℚ)
       (priorScore : ℚ) (isTerminal : Bool) (children : List MCTSNode)

def MCTSNode.move : MCTSNode → Option ℕ
  | .mk m _ _ _ _ _ => m

def MCTSNode.visits : MCTSNode → ℕ
  | .mk _ v _ _ _ _ => v

def MCTSNode.totalScore : MCTSNode → ℚ
  | .mk _ _ t _ _ _ => t

def MCTSNode.priorScore : MCTSNode → ℚ
  | .mk _ _ _ p _ _ => p

def MCTSNode.isTerminal : MCTSNode → Bool
  | .mk _ _ _ _ b _ => b

def MCTSNode.children : MCTSNode → List MCTSNode
  | .mk _ _ _ _ _ c => c

/-- Replace the element at index `i` (no-op when out of range). -/
def modifyNth (f : MCTSNode → MCTSNode) : List MCTSNode → ℕ → List MCTSNode
  | [], _ => []
  | x :: xs, 0 => f x :: xs
  | x :: xs, n + 1 => x :: modifyNth f xs n

/-- Follow a child-index path down the tree (dereferencing a node
pointer in the embedding). -/
def getNode : MCTSNode → List ℕ → Option MCTSNode
  | t, [] => some t
  | t, i :: rest => match t.children.get? i with
    | some c => getNode c rest
    | none => none

/-- Apply `f` to the node a child-index path points at (an in-place
update through a node pointer in the source). -/
def updateAt : MCTSNode → List ℕ → (MCTSNode → MCTSNode) → MCTSNode
  | t, [], f => f t
  | .mk m v ts ps term ch, i :: rest, f =>
      .mk m v ts ps term (modifyNth (fun c => updateAt c rest f) ch i)

/-- The moves of a node's children, in insertion order. -/
def childMoves (t : MCTSNode) : List (Option ℕ) :=
  t.children.map MCTSNode.move

/-- MCTSTree::getPathFromRoot (shashin.h lines 643-652): the moves along
a child-index path, root side first. -/
def pathMoves : MCTSNode → List ℕ → List (Option ℕ)
  | _, [] => []
  | t, i :: rest => match t.children.get? i with
    | some c => c.move :: pathMoves c rest
    | none => []

/-- Number of nodes of the tree (each node is created exactly once, by
the `MCTSNode` constructor, so this counts node creations). -/
def treeSize : MCTSNode → ℕ
  | .mk _ _ _ _ _ ch => 1 + (ch.attach.map (fun c => treeSize c.1)).sum
decreasing_by
  have := List.sizeOf_lt_of_mem c.2
  simp only [MCTSNode.mk.sizeOf_spec]
  omega

/-!  ## Undo stack

Every phase replays the path from the root on the single shared
position and undoes it in reverse before returning (the
`StateMove stateStack` pattern of shashin.h).  A stack entry holds the
position saved before the move was applied, newest entry first;
`undoStack` is the `for i = size-1 downto 0: undo_move` loop, each undo
restoring the saved pre-move state. -/
def undoStack (g : Game) : g.Pos → List (g.Pos × ℕ) → g.Pos
  | cur, [] => cur
  | _, (saved, _) :: rest => undoStack g saved rest

/-- Replay a move path from a position, accumulating the undo stack
(moves equal to the `Move::none()` sentinel are skipped, as in the
replay loops of shashin.h). -/
def applyPath (g : Game) : g.Pos → List (Option ℕ) → g.Pos × List (g.Pos × ℕ)
  | pos, [] => (pos, [])
  | pos, none :: rest => applyPath g pos rest
  | pos, some m :: rest =>
      let r := applyPath g (g.doMove pos m) rest
      (r.1, r.2 ++ [(pos, m)])

/-- The score inversion applied `n` times (`score = 1.0 - score` once
per step up the tree in MCTSTree::backpropagate). -/
def flipN : ℕ → ℚ → ℚ
  | 0, s => s
  | n + 1, s => 1 - flipN n s

/-- MCTSTree::backpropagate (shashin.h lines 600-617), written top-down
over the child-index path of the node the walk starts from: the node at
the end of the path receives `score`, and each node `k` levels above it
receives the score inverted `k` times, every node on the path getting
exactly one extra visit.  This is the leaf-to-root loop of the source
with the parent pointers read off the path. -/
def backpropagate : MCTSNode → List ℕ → ℚ → MCTSNode
  | .mk m v ts ps term ch, [], s => .mk m (v + 1) (ts + s) ps term ch
  | .mk m v ts ps term ch, i :: rest, s =>
      .mk m (v + 1) (ts + flipN (rest.length + 1) s) ps term
        (modifyNth (fun c => backpropagate c rest s) ch i)

/-!  ## Selection scores (real-valued) -/

/-- MCTSNode::uctScore (shashin.h lines 243-253).  `parentVisits` is
`parent ? parent->visits.load() : 1`, supplied by the caller (the
parent is the node whose `bestChild` is being computed). -/
noncomputable def uctScore (explorationConstant : ℝ) (parentVisits : ℕ)
    (n : MCTSNode) : ℝ :=
  if n.visits = 0 then
    (n.priorScore : ℝ) + explorationConstant
      * Real.sqrt (Real.log parentVisits)
  else
    (n.totalScore : ℝ) / n.visits
      + explorationConstant * Real.sqrt (Real.log parentVisits / n.visits)
      + (n.priorScore : ℝ) * 0.1

/-- The argmax loop of MCTSNode::bestChild (shashin.h lines 255-267).
The accumulator `none` is the initial `best = nullptr` /
`bestScore = -infinity` pair: the first child always replaces it, and
afterwards a child wins only with a strictly greater score. -/
noncomputable def bestChildGo (c : ℝ) (parentVisits : ℕ) :
    List MCTSNode → ℕ → Option (ℕ × ℝ) → Option (ℕ × ℝ)
  | [], _, acc => acc
  | n :: rest, i, acc =>
    match acc with
    | none => bestChildGo c parentVisits rest (i + 1) (some (i, uctScore c parentVisits n))
    | some (bi, bs) =>
        if uctScore c parentVisits n > bs then
          bestChildGo c parentVisits rest (i + 1) (some (i, uctScore c parentVisits n))
        else
          bestChildGo c parentVisits rest (i + 1) (some (bi, bs))

/-- MCTSNode::bestChild, returning the index of the winning child. -/
noncomputable def bestChildIdx (c : ℝ) (node : MCTSNode) : Option ℕ :=
  (bestChildGo c node.visits node.children 0 none).map Prod.fst

/-- The per-child robust score of MCTSTree::getBestMove (shashin.h
lines 627-632): `score + 0.1 * sqrt(visits)` with
`score = totalScore / max(visits, 1)`. -/
noncomputable def robustScore (n : MCTSNode) : ℝ :=
  (n.totalScore : ℝ) / (max n.visits 1 : ℕ) + 0.1 * Real.sqrt n.visits

/-- The argmax loop of MCTSTree::getBestMove (shashin.h lines 619-641),
same `-infinity` initialisation as `bestChild`. -/
noncomputable def getBestGo :
    List MCTSNode → Option (MCTSNode × ℝ) → Option (MCTSNode × ℝ)
  | [], acc => acc
  | n :: rest, acc =>
    match acc with
    | none => getBestGo rest (some (n, robustScore n))
    | some (bn, bs) =>
        if robustScore n > bs then getBestGo rest (some (n, robustScore n))
        else getBestGo rest (some (bn, bs))

/-- MCTSTree::getBestMove (shashin.h lines 619-641). -/
noncomputable def getBestMove (root : MCTSNode) : Option ℕ :=
  if root.children.isEmpty then none
  else
    match getBestGo root.children none with
    | some (bn, _) => bn.move
    | none => none

/-!  ## Move priors -/

/-- MCTSTree::calculateMovePrior (shashin.h lines 308-334).  The
capture bonus reads the captured piece's value when a piece stands on
the target square (`capturedPiece` is `none` exactly when
`piece_on(to_sq) == NO_PIECE`). -/
def calculateMovePrior (g : Game) (pos : g.Pos) (m : ℕ) : ℚ :=
  let p0 : ℚ := 1/2
  let p1 : ℚ :=
    if g.isCapture pos m then
      p0 + 1/5 + (match g.capturedPiece pos m with
        | some v => (v : ℚ) / 3000
        | none => 0)
    else p0
  let p2 : ℚ := if g.givesCheck pos m then p1 + 3/20 else p1
  let p3 : ℚ := if g.isPromotion pos m then p2 + 1/4 else p2
  min p3 (19/20)

/-- `double prior = 0.5; for mp in movePriors if mp.first == move ...`
(shashin.h lines 442-448): first matching entry, default 0.5. -/
def lookupPrior (mps : List (ℕ × ℚ)) (m : ℕ) : ℚ :=
  (List.lookup m mps).getD (1/2)

lemma MCTSNode.sizeOf_children_lt (n : MCTSNode) :
    sizeOf n.children < sizeOf n := by
  cases n with
  | mk m v ts ps term ch =>
    simp only [MCTSNode.children, MCTSNode.mk.sizeOf_spec]
    omega

lemma mem_of_get?_eq_some {α : Type} {l : List α} {i : ℕ} {a : α}
    (h : l.get? i = some a) : a ∈ l := by
  induction l generalizing i with
  | nil => simp [List.get?] at h
  | cons x xs ih =>
    cases i with
    | zero => simp [List.get?] at h; simp [h]
    | succ j =>
      simp only [List.get?] at h
      exact List.mem_cons_of_mem x (ih h)

/-!  ## Selection -/

/-- The descent loop of MCTSTree::select (shashin.h lines 381-393).
While the node is neither terminal nor childless, the node is descended
into exactly when its number of children has reached the number of
legal moves at its position (`isFullyExpanded`, lines 269-271); the
descended move is pushed on the undo stack.  Returns the child-index
path of the selected node, the deep position, the grown undo stack, and
a trace with one entry per descent recording, before that descent, the
node's number of children, its visit count and the legal move count at
its position.  (A null `bestChild` — impossible while the children list
is non-empty — and a sentinel child move stop the walk without a board
move, mirroring the guard at line 385.) -/
noncomputable def selectGo (g : Game) (c : ℝ) :
    MCTSNode → g.Pos → List (g.Pos × ℕ) →
    List ℕ × g.Pos × List (g.Pos × ℕ) × List (ℕ × ℕ × ℕ)
  | node, pos, stack =>
    if node.isTerminal || node.children.isEmpty then ([], pos, stack, [])
    else if node.children.length ≥ (g.legalMoves pos).length then
      match bestChildIdx c node with
      | none => ([], pos, stack, [])
      | some i =>
        match hc : node.children.get? i with
        | none => ([], pos, stack, [])
        | some child =>
          match child.move with
          | some m =>
            (i :: (selectGo g c child (g.doMove pos m) ((pos, m) :: stack)).1,
             (selectGo g c child (g.doMove pos m) ((pos, m) :: stack)).2.1,
             (selectGo g c child (g.doMove pos m) ((pos, m) :: stack)).2.2.1,
             (node.children.length, node.visits, (g.legalMoves pos).length)
               :: (selectGo g c child (g.doMove pos m) ((pos, m) :: stack)).2.2.2)
          | none => ([], pos, stack, [])
    else ([], pos, stack, [])
termination_by node _ _ => sizeOf node
decreasing_by
  all_goals
    have h1 := List.sizeOf_lt_of_mem (mem_of_get?_eq_some hc)
    have h2 := MCTSNode.sizeOf_children_lt node
    omega

/-- MCTSTree::select (shashin.h lines 368-399).  The search loop
invokes it on the root (line 353), whose `getPathFromRoot` is empty, so
the initial replay loop applies no move; the descent loop pushes each
descended move and every pushed move is undone in reverse before
returning.  Returns the selected node's child-index path, the restored
position, and the descent trace. -/
noncomputable def select (g : Game) (c : ℝ) (root : MCTSNode)
    (pos : g.Pos) : List ℕ × g.Pos × List (ℕ × ℕ × ℕ) :=
  let r := selectGo g c root pos []
  (r.1, undoStack g r.2.1 r.2.2.1, r.2.2.2)

/-!  ## Expansion -/

/-- `node->isTerminal = true` (shashin.h line 422). -/
def markTerminal : MCTSNode → MCTSNode
  | .mk m v ts ps _ ch => .mk m v ts ps true ch

/-- MCTSNode::addChild (shashin.h lines 273-278): push_back a fresh
node. -/
def appendChild (n : MCTSNode) (c : MCTSNode) : MCTSNode :=
  match n with
  | .mk m v ts ps term ch => .mk m v ts ps term (ch ++ [c])

/-- The `find first unexpanded move with best prior` loop of
expandWithPrior (shashin.h lines 436-454): strict improvement over the
accumulator, initialised `(Move::none(), -1.0)`. -/
def bestUnexpandedGo (exist : List (Option ℕ)) (mps : List (ℕ × ℚ)) :
    List ℕ → Option ℕ × ℚ → Option ℕ × ℚ
  | [], acc => acc
  | m :: ms, acc =>
    if (some m) ∈ exist then bestUnexpandedGo exist mps ms acc
    else if lookupPrior mps m > acc.2 then
      bestUnexpandedGo exist mps ms (some m, lookupPrior mps m)
    else bestUnexpandedGo exist mps ms acc

def bestUnexpanded (exist : List (Option ℕ)) (mps : List (ℕ × ℚ))
    (legal : List ℕ) : Option ℕ × ℚ :=
  bestUnexpandedGo exist mps legal (none, -1)

/-- MCTSTree::expandWithPrior (shashin.h lines 402-474), acting on the
tree through the selected node's child-index path.  Returns the updated
tree, the path of the node the simulation starts from (the new child at
index `children.length`, or the selected node when expansion is a
no-op), and the position after the symmetric undo of the replayed path.
The transient do/undo pair around the new child's terminal test
(lines 458-462) is the evaluation of the child position's legal moves.
(An unresolvable path leaves everything unchanged; in the search loop
the path always resolves.) -/
def expandWithPrior (g : Game) (tree : MCTSNode) (path : List ℕ)
    (pos : g.Pos) (mps : List (ℕ × ℚ)) : MCTSNode × List ℕ × g.Pos :=
  match getNode tree path with
  | none => (tree, path, pos)
  | some node =>
    if node.isTerminal then (tree, path, pos)
    else if (g.legalMoves (applyPath g pos (pathMoves tree path)).1).isEmpty then
      (updateAt tree path markTerminal, path,
       undoStack g (applyPath g pos (pathMoves tree path)).1
         (applyPath g pos (pathMoves tree path)).2)
    else
      match bestUnexpanded (childMoves node) mps
          (g.legalMoves (applyPath g pos (pathMoves tree path)).1) with
      | (some bm, bp) =>
        (updateAt tree path (fun n => appendChild n
           (.mk (some bm) 0 0 bp
             ((g.legalMoves
                (g.doMove (applyPath g pos (pathMoves tree path)).1 bm)).isEmpty)
             [])),
         path ++ [node.children.length],
         undoStack g (applyPath g pos (pathMoves tree path)).1
           (applyPath g pos (pathMoves tree path)).2)
      | (none, _) =>
        (tree, path,
         undoStack g (applyPath g pos (pathMoves tree path)).1
           (applyPath g pos (pathMoves tree path)).2)

/-!  ## Simulation -/

/-- One playout move's weight (shashin.h lines 544-565).  The capture
term reads `PieceValue[type_of(piece_on(to_sq))]` without a `NO_PIECE`
guard; an empty target square (en passant) contributes value 0. -/
def playoutWeight (g : Game) (pos : g.Pos) (m : ℕ) : ℚ :=
  let w0 : ℚ := 1
  let w1 := if g.isCapture pos m then
      w0 + (((g.capturedPiece pos m).getD 0 : ℕ) : ℚ) / 100
    else w0
  let w2 := if g.givesCheck pos m then w1 + 2 else w1
  if g.isPromotion pos m then w2 + 5 else w2

/-- The cumulative scan of the weighted random selection (shashin.h
lines 567-579): the first move whose running cumulative weight reaches
the drawn value. -/
def pickWeighted (rv : ℚ) : List (ℕ × ℚ) → ℚ → Option ℕ
  | [], _ => none
  | (m, w) :: rest, cum =>
      if cum + w ≥ rv then some m else pickWeighted rv rest (cum + w)

/-- The quiescence scan (shashin.h lines 515-526): among captures and
checks, the move with the strictly best static exchange value,
accumulator initialised `(Move::none(), -999999)`. -/
def bestForcingGo (g : Game) (pos : g.Pos) :
    List ℕ → Option ℕ × ℤ → Option ℕ × ℤ
  | [], acc => acc
  | m :: ms, acc =>
    if g.isCapture pos m || g.givesCheck pos m then
      if g.see pos m > acc.2 then bestForcingGo g pos ms (some m, g.see pos m)
      else bestForcingGo g pos ms acc
    else bestForcingGo g pos ms acc

/-- The weighted random selection block of the playout (shashin.h
lines 541-583): build the weighted move list, pick the first move whose
cumulative weight reaches the drawn value, and fall back to the last
weighted move when the draw overshoots (lines 581-583). -/
def playoutSelect (g : Game) (pos : g.Pos) (rv : ℚ) : ℕ :=
  match pickWeighted rv
      ((g.legalMoves pos).map (fun m => (m, playoutWeight g pos m))) 0 with
  | some m => m
  | none =>
      ((((g.legalMoves pos).map
          (fun m => (m, playoutWeight g pos m))).getLast?).map Prod.fst).getD 0

/-- The playout loop of MCTSTree::simulateEnhanced (shashin.h lines
494-589).  `rootSide` is the source's `rootSide` variable: the side to
move at the position the playout starts from (line 491).  Returns
`some result` when a terminal position ended the playout (lines
497-509) and `none` when the loop stopped with a position still to be
evaluated, together with the final deep position, the grown undo stack
and the next random-oracle index.  `rng k` is the value the
`uniform_real_distribution(0, totalWeight)` draw yields at the loop's
`k`-th consultation of the generator. -/
def playoutGo (g : Game) (rng : ℕ → ℚ) (maxSimDepth : ℕ) (rootSide : Bool) :
    ℕ → Bool → g.Pos → List (g.Pos × ℕ) → ℕ →
    Option ℚ × g.Pos × List (g.Pos × ℕ) × ℕ
  | depth, inQ, pos, stack, k =>
    if h : depth < maxSimDepth then
      if (g.legalMoves pos).isEmpty then
        (some (if g.inCheck pos then
                 (if g.sideToMove pos = rootSide then 0 else 1)
               else 1/2), pos, stack, k)
      else if depth ≥ 20 || inQ then
        match (bestForcingGo g pos (g.legalMoves pos) (none, -999999)).1 with
        | some bm =>
            playoutGo g rng maxSimDepth rootSide (depth + 1) true
              (g.doMove pos bm) ((pos, bm) :: stack) k
        | none => (none, pos, stack, k)
      else
        playoutGo g rng maxSimDepth rootSide (depth + 1) inQ
          (g.doMove pos (playoutSelect g pos (rng k)))
          ((pos, playoutSelect g pos (rng k)) :: stack) (k + 1)
    else (none, pos, stack, k)
termination_by depth _ _ _ _ => maxSimDepth - depth
decreasing_by
  all_goals omega

/-- MCTSTree::evaluateEnhanced (shashin.h lines 655-683).  The tree is
constructed with a null network (runMCTSSearch line 982), so the value
is the heuristic evaluation; the normalisation clamps
`0.5 + value/8000` into [0,1] (line 674-675) and the score is flipped
when the side to move differs from `rootSide` (lines 677-680). -/
def evaluateEnhanced (g : Game) (pos : g.Pos) (rootSide : Bool) : ℚ :=
  let score : ℚ := max 0 (min 1 ((1 : ℚ)/2 + ((g.evalHeuristic pos : ℤ) : ℚ) / 8000))
  if g.sideToMove pos ≠ rootSide then 1 - score else score

/-- MCTSTree::simulateEnhanced (shashin.h lines 477-598): replay the
node's move path, read `rootSide` at the replayed position (line 491),
run the playout, evaluate the final position unless the playout ended
terminally, and undo the whole stack on every exit path.  Returns the
score, the restored position, and the next random-oracle index. -/
def simulateEnhanced (g : Game) (rng : ℕ → ℚ) (maxSimDepth : ℕ)
    (moves : List (Option ℕ)) (pos : g.Pos) (k : ℕ) : ℚ × g.Pos × ℕ :=
  let rp := applyPath g pos moves
  let rootSide := g.sideToMove rp.1
  let r := playoutGo g rng maxSimDepth rootSide 0 false rp.1 rp.2 k
  let score := match r.1 with
    | some res => res
    | none => evaluateEnhanced g r.2.1 rootSide
  (score, undoStack g r.2.1 r.2.2.1, r.2.2.2)

/-!  ## The search loop -/

/-- The state threaded through the iterations: the tree, the shared
mutable position, and the random oracle's position. -/
structure SearchState (g : Game) where
  tree : MCTSNode
  pos : g.Pos
  rk : ℕ

/-- What one `MCTSTree::search` call produces and leaves behind: the
returned move, the final tree (rooted at the node built at line 337),
the shared position as the caller sees it afterwards, and the number of
loop iterations executed. -/
structure SearchResult (g : Game) where
  move : Option ℕ
  tree : MCTSNode
  pos : g.Pos
  iters : ℕ

/-- One iteration of the search loop (shashin.h lines 351-363):
select, expand, simulate, backpropagate. -/
noncomputable def searchIter (g : Game) (c : ℝ) (msd : ℕ) (rng : ℕ → ℚ)
    (mps : List (ℕ × ℚ)) (st : SearchState g) : SearchState g :=
  let sel := select g c st.tree st.pos
  let ex := expandWithPrior g st.tree sel.1 sel.2.1 mps
  let sim := simulateEnhanced g rng msd (pathMoves ex.1 ex.2.1) ex.2.2 st.rk
  ⟨backpropagate ex.1 ex.2.1 sim.1, sim.2.1, sim.2.2⟩

/-- `for (int i = 0; i < maxIterations; ++i)` (shashin.h line 351). -/
noncomputable def searchLoop (g : Game) (c : ℝ) (msd : ℕ) (rng : ℕ → ℚ)
    (mps : List (ℕ × ℚ)) : ℕ → SearchState g → SearchState g
  | 0, st => st
  | n + 1, st => searchLoop g c msd rng mps n (searchIter g c msd rng mps st)

/-- MCTSTree::search (shashin.h lines 336-366): build the root node
(priorScore 1), return the sentinel when the root has no legal moves,
otherwise precompute the root move priors, run the iteration budget and
pick the answer with getBestMove. -/
noncomputable def search (g : Game) (c : ℝ) (msd : ℕ) (rng : ℕ → ℚ)
    (pos : g.Pos) (maxIterations : ℕ) : SearchResult g :=
  let root : MCTSNode := .mk none 0 0 1 false []
  let rootMoves := g.legalMoves pos
  if rootMoves.isEmpty then ⟨none, root, pos, 0⟩
  else
    let mps := rootMoves.map (fun m => (m, calculateMovePrior g pos m))
    let fin := searchLoop g c msd rng mps maxIterations ⟨root, pos, 0⟩
    ⟨getBestMove fin.tree, fin.tree, fin.pos, maxIterations⟩

/-!  ## Spec-side models

Definitions in this section follow the specification's words, not the
source; each exists only to be compared with the corresponding
definition translated from the code. -/

/-- Modelled from the spec: the selection score for a visited node,
`valueSum/n + E*sqrt(2/(1+n/10))*sqrt(log(N+1)/n)
 + priorScore*max(0.05, 0.3 - n*0.01)` with
`E = explorationConstant*(0.65 + 0.85/(1 + N/64))`. -/
noncomputable def uctScoreSpec (explorationConstant : ℝ) (N n : ℕ)
    (valueSum priorScore : ℝ) : ℝ :=
  let E : ℝ := explorationConstant * (0.65 + 0.85 / (1 + (N : ℝ) / 64))
  valueSum / n
    + E * Real.sqrt (2 / (1 + (n : ℝ) / 10))
        * Real.sqrt (Real.log ((N : ℝ) + 1) / n)
    + priorScore * max 0.05 (0.3 - (n : ℝ) * 0.01)

/-- Modelled from the spec: the progressive-widening bound
`max(1, ceil(1.8 * sqrt(visitCount)))` a descended-into node's number
of children is claimed to have reached. -/
noncomputable def wideningBoundSpec (visits : ℕ) : ℤ :=
  max 1 ⌈(1.8 : ℝ) * Real.sqrt (visits : ℝ)⌉

/-- Modelled from the spec: the logistic squashing
`p = 1/(1+exp(-v/400))` the simulation phase is claimed to apply to the
raw advantage. -/
noncomputable def logisticSpec (v : ℝ) : ℝ :=
  1 / (1 + Real.exp (-v / 400))

/-- Modelled from the spec: `meanValue + 0.15*sqrt(visits)/10`, plus a
flat 0.05 bonus when the visit count exceeds `iterationBudget/5`. -/
noncomputable def specScore (budget : ℕ) (n : MCTSNode) : ℝ :=
  (n.totalScore : ℝ) / n.visits + 0.15 * Real.sqrt n.visits / 10
    + (if n.visits > budget / 5 then 0.05 else 0)

/-- Modelled from the spec: the recommendation rule claimed for
getBestMove — among root children with at least one visit, maximise
`specScore` (first maximum wins). -/
noncomputable def getBestMoveSpecGo (budget : ℕ) :
    List MCTSNode → Option (MCTSNode × ℝ) → Option (MCTSNode × ℝ)
  | [], acc => acc
  | n :: rest, acc =>
    if n.visits = 0 then getBestMoveSpecGo budget rest acc
    else
      match acc with
      | none => getBestMoveSpecGo budget rest (some (n, specScore budget n))
      | some (bn, bs) =>
          if specScore budget n > bs then
            getBestMoveSpecGo budget rest (some (n, specScore budget n))
          else getBestMoveSpecGo budget rest (some (bn, bs))

noncomputable def getBestMoveSpec (budget : ℕ) (root : MCTSNode) : Option ℕ :=
  match getBestMoveSpecGo budget root.children none with
  | some (bn, _) => bn.move
  | none => none

/-!  ## Restoration lemmas: the symmetric apply/undo discipline -/

lemma undoStack_cons (g : Game) (cur saved : g.Pos) (m : ℕ)
    (rest : List (g.Pos × ℕ)) :
    undoStack g cur ((saved, m) :: rest) = undoStack g saved rest := rfl

lemma undoStack_append (g : Game) (p0 : g.Pos) (m : ℕ) :
    ∀ (l : List (g.Pos × ℕ)) (cur : g.Pos),
      undoStack g cur (l ++ [(p0, m)]) = p0 := by
  intro l
  induction l with
  | nil => intro cur; rfl
  | cons e rest ih =>
    intro cur
    obtain ⟨saved, mm⟩ := e
    rw [List.cons_append, undoStack_cons]
    exact ih saved

/-- Undoing the stack built by a path replay restores the starting
position. -/
lemma applyPath_undo (g : Game) :
    ∀ (ms : List (Option ℕ)) (pos : g.Pos),
      undoStack g (applyPath g pos ms).1 (applyPath g pos ms).2 = pos := by
  intro ms
  induction ms with
  | nil => intro pos; rfl
  | cons om rest ih =>
    intro pos
    cases om with
    | none => simpa [applyPath] using ih pos
    | some m => simp [applyPath, undoStack_append]

/-- The playout loop only pushes: undoing its final stack from its
final position lands wherever undoing the incoming stack from the
incoming position lands. -/
lemma playoutGo_undo (g : Game) (rng : ℕ → ℚ) (msd : ℕ) (rs : Bool) :
    ∀ (fuel depth : ℕ) (inQ : Bool) (pos : g.Pos)
      (stack : List (g.Pos × ℕ)) (k : ℕ), msd - depth ≤ fuel →
      undoStack g (playoutGo g rng msd rs depth inQ pos stack k).2.1
          (playoutGo g rng msd rs depth inQ pos stack k).2.2.1
        = undoStack g pos stack := by
  intro fuel
  induction fuel with
  | zero =>
    intro depth inQ pos stack k hf
    rw [playoutGo]
    have h : ¬ depth < msd := by omega
    simp [h]
  | succ f ih =>
    intro depth inQ pos stack k hf
    rw [playoutGo]
    by_cases h : depth < msd
    · rw [dif_pos h]
      by_cases hleg : (g.legalMoves pos).isEmpty
      · simp [hleg]
      · rw [if_neg hleg]
        by_cases hq : depth ≥ 20 || inQ
        · rw [if_pos hq]
          cases hbf : (bestForcingGo g pos (g.legalMoves pos) (none, -999999)).1 with
          | none => rfl
          | some bm =>
            rw [ih (depth + 1) true (g.doMove pos bm) ((pos, bm) :: stack) k
              (by omega)]
            rfl
        · rw [if_neg hq]
          rw [ih (depth + 1) inQ _ _ (k + 1) (by omega)]
          rfl
    · rw [dif_neg h]

lemma MCTSNode.one_le_sizeOf (n : MCTSNode) : 1 ≤ sizeOf n := by
  cases n
  simp [MCTSNode.mk.sizeOf_spec]
  omega

/-- The descent loop only pushes: same invariant as the playout. -/
lemma selectGo_undo (g : Game) (c : ℝ) :
    ∀ (n : ℕ) (node : MCTSNode), sizeOf node ≤ n →
      ∀ (pos : g.Pos) (stack : List (g.Pos × ℕ)),
      undoStack g (selectGo g c node pos stack).2.1
          (selectGo g c node pos stack).2.2.1
        = undoStack g pos stack := by
  intro n
  induction n with
  | zero =>
    intro node h
    have := MCTSNode.one_le_sizeOf node
    omega
  | succ f ih =>
    intro node h pos stack
    rw [selectGo]
    by_cases h1 : node.isTerminal || node.children.isEmpty
    · rw [if_pos h1]
    · rw [if_neg h1]
      by_cases h2 : node.children.length ≥ (g.legalMoves pos).length
      · rw [if_pos h2]
        split
        · rfl
        · split
          · rfl
          · rename_i i hb child hc
            split
            · rename_i m hm
              have hsz : sizeOf child ≤ f := by
                have hx := List.sizeOf_lt_of_mem (mem_of_get?_eq_some hc)
                have hy := MCTSNode.sizeOf_children_lt node
                omega
              have hrec := ih child hsz (g.doMove pos m) ((pos, m) :: stack)
              simpa using hrec
            · rfl
      · rw [if_neg h2]

lemma select_pos (g : Game) (c : ℝ) (root : MCTSNode) (pos : g.Pos) :
    (select g c root pos).2.1 = pos := by
  rw [select]
  exact selectGo_undo g c (sizeOf root) root le_rfl pos []

lemma expandWithPrior_pos (g : Game) (tree : MCTSNode) (path : List ℕ)
    (pos : g.Pos) (mps : List (ℕ × ℚ)) :
    (expandWithPrior g tree path pos mps).2.2 = pos := by
  rw [expandWithPrior]
  split
  · rfl
  · split
    · rfl
    · split
      · exact applyPath_undo g (pathMoves tree path) pos
      · split
        · exact applyPath_undo g (pathMoves tree path) pos
        · exact applyPath_undo g (pathMoves tree path) pos

lemma simulateEnhanced_pos (g : Game) (rng : ℕ → ℚ) (msd : ℕ)
    (moves : List (Option ℕ)) (pos : g.Pos) (k : ℕ) :
    (simulateEnhanced g rng msd moves pos k).2.1 = pos := by
  rw [simulateEnhanced]
  have h1 := playoutGo_undo g rng msd
    (g.sideToMove (applyPath g pos moves).1) (msd - 0) 0 false
    (applyPath g pos moves).1 (applyPath g pos moves).2 k le_rfl
  simp only []
  rw [h1]
  exact applyPath_undo g moves pos

lemma searchIter_pos (g : Game) (c : ℝ) (msd : ℕ) (rng : ℕ → ℚ)
    (mps : List (ℕ × ℚ)) (st : SearchState g) :
    (searchIter g c msd rng mps st).pos = st.pos := by
  rw [searchIter]
  simp only []
  rw [simulateEnhanced_pos]
  rw [expandWithPrior_pos]
  exact select_pos g c st.tree st.pos

lemma searchLoop_pos (g : Game) (c : ℝ) (msd : ℕ) (rng : ℕ → ℚ)
    (mps : List (ℕ × ℚ)) :
    ∀ (n : ℕ) (st : SearchState g),
      (searchLoop g c msd rng mps n st).pos = st.pos := by
  intro n
  induction n with
  | zero => intro st; rfl
  | succ m ih =>
    intro st
    rw [searchLoop, ih, searchIter_pos]

/-!  ## Claim C8: the caller's board is restored -/

/-- C8: `search` leaves the caller's board unchanged across the call
boundary: every phase replays moves and undoes them in reverse on every
exit path, so the net effect of the whole call on the passed-in
position is a no-op. -/
theorem c8_board_restored (g : Game) (c : ℝ) (msd : ℕ) (rng : ℕ → ℚ)
    (pos : g.Pos) (budget : ℕ) :
    (search g c msd rng pos budget).pos = pos := by
  rw [search]
  by_cases h : (g.legalMoves pos).isEmpty
  · rw [if_pos h]
  · rw [if_neg h]
    simp only []
    exact searchLoop_pos g c msd rng _ budget ⟨_, pos, 0⟩

/-!  ## Structural lemmas about tree updates -/

lemma flipN_even_odd (n : ℕ) (s : ℚ) :
    flipN n s = if Even n then s else 1 - s := by
  induction n with
  | zero => simp [flipN]
  | succ m ih =>
    by_cases h : Even m
    · simp [flipN, ih, h, Nat.even_add_one]
    · simp [flipN, ih, h, Nat.even_add_one, sub_sub_cancel]

lemma backpropagate_visits (t : MCTSNode) (p : List ℕ) (s : ℚ) :
    (backpropagate t p s).visits = t.visits + 1 := by
  cases t
  cases p <;> rfl

lemma backpropagate_totalScore (t : MCTSNode) (p : List ℕ) (s : ℚ) :
    (backpropagate t p s).totalScore = t.totalScore + flipN p.length s := by
  cases t
  cases p <;> rfl

lemma backpropagate_move (t : MCTSNode) (p : List ℕ) (s : ℚ) :
    (backpropagate t p s).move = t.move := by
  cases t
  cases p <;> rfl

lemma backpropagate_isTerminal (t : MCTSNode) (p : List ℕ) (s : ℚ) :
    (backpropagate t p s).isTerminal = t.isTerminal := by
  cases t
  cases p <;> rfl

lemma modifyNth_length (f : MCTSNode → MCTSNode) :
    ∀ (l : List MCTSNode) (i : ℕ), (modifyNth f l i).length = l.length := by
  intro l
  induction l with
  | nil => intro i; rfl
  | cons x xs ih =>
    intro i
    cases i with
    | zero => rfl
    | succ j => simp [modifyNth, ih]

lemma modifyNth_map_move (f : MCTSNode → MCTSNode)
    (hf : ∀ x, (f x).move = x.move) :
    ∀ (l : List MCTSNode) (i : ℕ),
      (modifyNth f l i).map MCTSNode.move = l.map MCTSNode.move := by
  intro l
  induction l with
  | nil => intro i; rfl
  | cons x xs ih =>
    intro i
    cases i with
    | zero => simp [modifyNth, hf]
    | succ j => simp [modifyNth, ih]

lemma modifyNth_get?_self (f : MCTSNode → MCTSNode) :
    ∀ (l : List MCTSNode) (i : ℕ),
      (modifyNth f l i).get? i = (l.get? i).map f := by
  intro l
  induction l with
  | nil => intro i; cases i <;> rfl
  | cons x xs ih =>
    intro i
    cases i with
    | zero => rfl
    | succ j => simpa [modifyNth] using ih j

lemma backpropagate_childMoves (t : MCTSNode) (p : List ℕ) (s : ℚ) :
    childMoves (backpropagate t p s) = childMoves t := by
  cases t with
  | mk m v ts ps term ch =>
    cases p with
    | nil => rfl
    | cons i rest =>
      show (modifyNth (fun c => backpropagate c rest s) ch i).map MCTSNode.move
        = ch.map MCTSNode.move
      exact modifyNth_map_move _ (fun x => backpropagate_move x rest s) ch i

lemma backpropagate_children_length (t : MCTSNode) (p : List ℕ) (s : ℚ) :
    (backpropagate t p s).children.length = t.children.length := by
  cases t with
  | mk m v ts ps term ch =>
    cases p with
    | nil => rfl
    | cons i rest =>
      show (modifyNth (fun c => backpropagate c rest s) ch i).length = ch.length
      exact modifyNth_length _ ch i

lemma backpropagate_path_visits :
    ∀ (q p : List ℕ) (t node : MCTSNode) (s : ℚ),
      q <+: p → getNode t q = some node →
      ∃ node', getNode (backpropagate t p s) q = some node'
        ∧ node'.visits = node.visits + 1 := by
  intro q
  induction q with
  | nil =>
    intro p t node s _ hget
    have ht : t = node := by simpa [getNode] using hget
    subst ht
    exact ⟨backpropagate t p s, rfl, backpropagate_visits t p s⟩
  | cons j q' ih =>
    intro p t node s hpre hget
    obtain ⟨r, rfl⟩ := hpre
    cases t with
    | mk m v ts ps term ch =>
      rw [getNode] at hget
      cases hcj : ch.get? j with
      | none =>
        rw [show MCTSNode.children (.mk m v ts ps term ch) = ch from rfl, hcj]
          at hget
        exact absurd hget (by simp)
      | some cj =>
        rw [show MCTSNode.children (.mk m v ts ps term ch) = ch from rfl, hcj]
          at hget
        rw [List.cons_append, backpropagate, getNode]
        have hmod : (modifyNth (fun c => backpropagate c (q' ++ r) s) ch j).get? j
            = some (backpropagate cj (q' ++ r) s) := by
          rw [modifyNth_get?_self, hcj]
          rfl
        rw [show MCTSNode.children
            (.mk m (v + 1) (ts + flipN ((q' ++ r).length + 1) s) ps term
              (modifyNth (fun c => backpropagate c (q' ++ r) s) ch j))
            = modifyNth (fun c => backpropagate c (q' ++ r) s) ch j from rfl]
        rw [hmod]
        exact ih (q' ++ r) cj node s (List.prefix_append q' r) hget

/-!  ## Updates through a path preserve the root's bookkeeping -/

lemma updateAt_visits (f : MCTSNode → MCTSNode)
    (hf : ∀ x, (f x).visits = x.visits) :
    ∀ (p : List ℕ) (t : MCTSNode), (updateAt t p f).visits = t.visits := by
  intro p
  cases p with
  | nil => intro t; cases t; simpa [updateAt] using hf _
  | cons i rest => intro t; cases t; rfl

lemma updateAt_move (f : MCTSNode → MCTSNode)
    (hf : ∀ x, (f x).move = x.move) :
    ∀ (p : List ℕ) (t : MCTSNode), (updateAt t p f).move = t.move := by
  intro p
  cases p with
  | nil => intro t; cases t; simpa [updateAt] using hf _
  | cons i rest => intro t; cases t; rfl

lemma updateAt_isTerminal (f : MCTSNode → MCTSNode)
    (hf : ∀ x, (f x).isTerminal = x.isTerminal) :
    ∀ (p : List ℕ) (t : MCTSNode),
      (updateAt t p f).isTerminal = t.isTerminal := by
  intro p
  cases p with
  | nil => intro t; cases t; simpa [updateAt] using hf _
  | cons i rest => intro t; cases t; rfl

lemma updateAt_ne_nil_isTerminal (f : MCTSNode → MCTSNode) (i : ℕ)
    (rest : List ℕ) (t : MCTSNode) :
    (updateAt t (i :: rest) f).isTerminal = t.isTerminal := by
  cases t; rfl

lemma updateAt_move_any (f : MCTSNode → MCTSNode) :
    ∀ (p : List ℕ), p ≠ [] → ∀ (t : MCTSNode),
      (updateAt t p f).move = t.move := by
  intro p hp
  cases p with
  | nil => exact absurd rfl hp
  | cons i rest => intro t; cases t; rfl

lemma updateAt_childMoves (f : MCTSNode → MCTSNode)
    (hf : ∀ x, (f x).move = x.move) :
    ∀ (i : ℕ) (rest : List ℕ) (t : MCTSNode),
      childMoves (updateAt t (i :: rest) f) = childMoves t := by
  intro i rest t
  cases t with
  | mk m v ts ps term ch =>
    show (modifyNth (fun c => updateAt c rest f) ch i).map MCTSNode.move
      = ch.map MCTSNode.move
    exact modifyNth_map_move _ (fun x => updateAt_move f hf rest x) ch i

lemma updateAt_children_length (f : MCTSNode → MCTSNode) (i : ℕ)
    (rest : List ℕ) (t : MCTSNode) :
    (updateAt t (i :: rest) f).children.length = t.children.length := by
  cases t with
  | mk m v ts ps term ch =>
    show (modifyNth (fun c => updateAt c rest f) ch i).length = ch.length
    exact modifyNth_length _ ch i

lemma markTerminal_visits (x : MCTSNode) :
    (markTerminal x).visits = x.visits := by cases x; rfl

lemma markTerminal_move (x : MCTSNode) :
    (markTerminal x).move = x.move := by cases x; rfl

lemma markTerminal_childMoves (x : MCTSNode) :
    childMoves (markTerminal x) = childMoves x := by cases x; rfl

lemma appendChild_visits (x c : MCTSNode) :
    (appendChild x c).visits = x.visits := by cases x; rfl

lemma appendChild_move (x c : MCTSNode) :
    (appendChild x c).move = x.move := by cases x; rfl

lemma appendChild_isTerminal (x c : MCTSNode) :
    (appendChild x c).isTerminal = x.isTerminal := by cases x; rfl

lemma appendChild_childMoves (x c : MCTSNode) :
    childMoves (appendChild x c) = childMoves x ++ [c.move] := by
  cases x; simp [appendChild, childMoves, MCTSNode.children]

lemma expandWithPrior_visits (g : Game) (tree : MCTSNode) (path : List ℕ)
    (pos : g.Pos) (mps : List (ℕ × ℚ)) :
    (expandWithPrior g tree path pos mps).1.visits = tree.visits := by
  rw [expandWithPrior]
  split
  · rfl
  · split
    · rfl
    · split
      · exact updateAt_visits markTerminal markTerminal_visits path tree
      · split
        · exact updateAt_visits _ (fun x => appendChild_visits x _) path tree
        · rfl

lemma searchIter_visits (g : Game) (c : ℝ) (msd : ℕ) (rng : ℕ → ℚ)
    (mps : List (ℕ × ℚ)) (st : SearchState g) :
    (searchIter g c msd rng mps st).tree.visits = st.tree.visits + 1 := by
  rw [searchIter]
  simp only []
  rw [backpropagate_visits, expandWithPrior_visits]

lemma searchLoop_visits (g : Game) (c : ℝ) (msd : ℕ) (rng : ℕ → ℚ)
    (mps : List (ℕ × ℚ)) :
    ∀ (n : ℕ) (st : SearchState g),
      (searchLoop g c msd rng mps n st).tree.visits = st.tree.visits + n := by
  intro n
  induction n with
  | zero => intro st; rfl
  | succ m ih =>
    intro st
    rw [searchLoop, ih, searchIter_visits]
    omega

/-!  ## Claim C5: backpropagation -/

/-- C5: backpropagation adds exactly one visit to every node on the
path from the expanded leaf up to the root; the score added at the root
equals the leaf score `s` when the leaf's depth is even and `1 - s`
when it is odd (one inversion per ply); consequently, after `k`
iterations the root's visit count is exactly `k`. -/
theorem c5_backpropagation :
    (∀ (t : MCTSNode) (p : List ℕ) (s : ℚ),
        (backpropagate t p s).visits = t.visits + 1
        ∧ (backpropagate t p s).totalScore
            = t.totalScore + (if Even p.length then s else 1 - s))
    ∧ (∀ (q p : List ℕ) (t node : MCTSNode) (s : ℚ),
        q <+: p → getNode t q = some node →
        ∃ node', getNode (backpropagate t p s) q = some node'
          ∧ node'.visits = node.visits + 1)
    ∧ (∀ (g : Game) (c : ℝ) (msd : ℕ) (rng : ℕ → ℚ) (pos : g.Pos) (k : ℕ),
        g.legalMoves pos ≠ [] →
        (search g c msd rng pos k).tree.visits = k) := by
  refine ⟨?_, backpropagate_path_visits, ?_⟩
  · intro t p s
    exact ⟨backpropagate_visits t p s, by
      rw [backpropagate_totalScore, flipN_even_odd]⟩
  · intro g c msd rng pos k h
    rw [search]
    rw [if_neg (by simpa [List.isEmpty_iff] using h)]
    simp only []
    rw [searchLoop_visits]
    simp [MCTSNode.visits]

/-!  ## Claim C9: a root without legal moves -/

/-- A toy game instance with no legal move anywhere. -/
def gEmpty : Game where
  Pos := ℕ
  legalMoves := fun _ => []
  doMove := fun p _ => p + 1
  sideToMove := fun p => decide (p % 2 = 0)
  inCheck := fun _ => false
  isCapture := fun _ _ => false
  capturedPiece := fun _ _ => none
  givesCheck := fun _ _ => false
  isPromotion := fun _ _ => false
  see := fun _ _ => 0
  evalHeuristic := fun _ => 0

/-- C9, counterexample to "zero node creations": on a board with no
legal moves `search` does return the sentinel and runs zero iterations,
but the root node has already been constructed when the legal-move
check runs (line 337 precedes line 340), so exactly one node creation
is performed, not zero. -/
theorem c9_counterexample :
    (search gEmpty 1 4 (fun _ => 0) (0 : ℕ) 100).move = none
    ∧ (search gEmpty 1 4 (fun _ => 0) (0 : ℕ) 100).iters = 0
    ∧ treeSize (search gEmpty 1 4 (fun _ => 0) (0 : ℕ) 100).tree = 1
    ∧ ¬ treeSize (search gEmpty 1 4 (fun _ => 0) (0 : ℕ) 100).tree = 0 := by
  have hs : search gEmpty 1 4 (fun _ => 0) (0 : ℕ) 100
      = ⟨none, .mk none 0 0 1 false [], (0 : ℕ), 0⟩ := by
    rw [search]
    rfl
  rw [hs, treeSize]
  refine ⟨rfl, rfl, ?_, ?_⟩ <;> simp

/-- C9, amended: for a board with zero legal moves `search` returns the
"no move" sentinel, runs zero iterations, and creates exactly one node
— the root, which is always allocated before the legal-move check. -/
theorem c9_amended (g : Game) (c : ℝ) (msd : ℕ) (rng : ℕ → ℚ)
    (pos : g.Pos) (budget : ℕ) (h : g.legalMoves pos = []) :
    (search g c msd rng pos budget).move = none
    ∧ (search g c msd rng pos budget).iters = 0
    ∧ treeSize (search g c msd rng pos budget).tree = 1 := by
  have hs : search g c msd rng pos budget
      = ⟨none, .mk none 0 0 1 false [], pos, 0⟩ := by
    rw [search]
    rw [if_pos (by simp [h])]
  rw [hs, treeSize]
  refine ⟨rfl, rfl, by simp⟩

/-- C9, witness for the amended theorem on the empty toy game. -/
theorem c9_witness :
    gEmpty.legalMoves (5 : ℕ) = []
    ∧ ((search gEmpty 2 4 (fun _ => 0) (5 : ℕ) 50).move = none
       ∧ (search gEmpty 2 4 (fun _ => 0) (5 : ℕ) 50).iters = 0
       ∧ treeSize (search gEmpty 2 4 (fun _ => 0) (5 : ℕ) 50).tree = 1) :=
  ⟨rfl, c9_amended gEmpty 2 4 (fun _ => 0) (5 : ℕ) 50 rfl⟩

/-!  ## Claim C6: the simulation phase -/

/-- A toy game instance for the simulation counterexample: one legal
move everywhere, evaluation 0 at the start position and 8000 one ply
later. -/
def gC6 : Game where
  Pos := ℕ
  legalMoves := fun _ => [3]
  doMove := fun p _ => p + 1
  sideToMove := fun p => decide (p % 2 = 0)
  inCheck := fun _ => false
  isCapture := fun _ _ => false
  capturedPiece := fun _ _ => none
  givesCheck := fun _ _ => false
  isPromotion := fun _ _ => false
  see := fun _ _ => 0
  evalHeuristic := fun p => if p = 0 then 0 else 8000

lemma playoutWeight_gC6 (p : ℕ) (m : ℕ) : playoutWeight gC6 p m = 1 := by
  rw [playoutWeight]
  simp [show gC6.isCapture p m = false from rfl,
        show gC6.givesCheck p m = false from rfl,
        show gC6.isPromotion p m = false from rfl]

lemma playoutSelect_gC6 (p : ℕ) : playoutSelect gC6 p 0 = 3 := by
  rw [playoutSelect]
  rw [show gC6.legalMoves p = [3] from rfl]
  norm_num [pickWeighted, playoutWeight_gC6]

lemma playoutGo_gC6_step1 (rs : Bool) :
    playoutGo gC6 (fun _ => 0) 1 rs 1 false (1 : ℕ) [((0:ℕ), 3)] 1
      = (none, (1:ℕ), [((0:ℕ), 3)], 1) := by
  rw [playoutGo]
  rw [dif_neg (by norm_num)]

lemma playoutGo_gC6_step0 (rs : Bool) :
    playoutGo gC6 (fun _ => 0) 1 rs 0 false (0 : ℕ) [] 0
      = (none, (1:ℕ), [((0:ℕ), 3)], 1) := by
  rw [playoutGo]
  rw [dif_pos (by norm_num : (0:ℕ) < 1)]
  rw [if_neg (show ¬ (gC6.legalMoves (0:ℕ)).isEmpty = true by decide)]
  rw [if_neg (show ¬ (decide ((0:ℕ) ≥ 20) || false) = true by decide)]
  simp only [playoutSelect_gC6]
  have hdo : gC6.doMove (0:ℕ) 3 = (1:ℕ) := rfl
  rw [hdo]
  exact playoutGo_gC6_step1 rs

lemma simulateEnhanced_gC6 :
    simulateEnhanced gC6 (fun _ => 0) 1 [] (0 : ℕ) 0 = (0, (0 : ℕ), 1) := by
  rw [simulateEnhanced]
  simp only [applyPath]
  rw [playoutGo_gC6_step0]
  have he1 : gC6.sideToMove (0:ℕ) = true := rfl
  have he2 : gC6.sideToMove (1:ℕ) = false := rfl
  have he3 : gC6.evalHeuristic (1:ℕ) = 8000 := rfl
  show (evaluateEnhanced gC6 (1:ℕ) (gC6.sideToMove (0:ℕ)), (0:ℕ), (1:ℕ))
    = ((0:ℚ), (0:ℕ), (1:ℕ))
  norm_num [evaluateEnhanced, he1, he2, he3, min_def, max_def]

/-- C6, counterexample.  On a concrete game the simulation phase
returns exactly 0: the evaluation is a linear clamp of `0.5 + v/8000`
into the closed interval [0,1] (not the logistic squashing, whose
values — flipped or not — are never 0), and it is applied to the
position at the end of a playout, not to the expanded node's position
(whose evaluation is 0, logistic value 1/2). -/
theorem c6_counterexample :
    (simulateEnhanced gC6 (fun _ => 0) 1 [] (0 : ℕ) 0).1 = 0
    ∧ logisticSpec ((gC6.evalHeuristic (0 : ℕ) : ℤ) : ℝ) ≠ 0
    ∧ 1 - logisticSpec ((gC6.evalHeuristic (0 : ℕ) : ℤ) : ℝ) ≠ 0 := by
  refine ⟨by rw [simulateEnhanced_gC6], ?_, ?_⟩
  · rw [logisticSpec]
    have h := Real.exp_pos (-((gC6.evalHeuristic (0:ℕ) : ℤ) : ℝ) / 400)
    positivity
  · rw [logisticSpec]
    have h := Real.exp_pos (-((gC6.evalHeuristic (0:ℕ) : ℤ) : ℝ) / 400)
    have hlt : 1 / (1 + Real.exp (-((gC6.evalHeuristic (0:ℕ) : ℤ) : ℝ) / 400)) < 1 := by
      rw [div_lt_one (by linarith)]
      linarith
    exact sub_ne_zero.mpr (ne_of_gt hlt)

lemma evaluateEnhanced_range (g : Game) (pos : g.Pos) (rs : Bool) :
    0 ≤ evaluateEnhanced g pos rs ∧ evaluateEnhanced g pos rs ≤ 1 := by
  rw [evaluateEnhanced]
  have h1 : (0 : ℚ) ≤ max 0 (min 1 ((1:ℚ)/2 + ((g.evalHeuristic pos : ℤ) : ℚ) / 8000)) :=
    le_max_left 0 _
  have h2 : max 0 (min 1 ((1:ℚ)/2 + ((g.evalHeuristic pos : ℤ) : ℚ) / 8000)) ≤ 1 :=
    max_le (by norm_num) (min_le_left 1 _)
  split
  · constructor <;> linarith
  · constructor <;> linarith

lemma evaluateEnhanced_flip (g : Game) (pos : g.Pos) (rs : Bool) :
    evaluateEnhanced g pos rs + evaluateEnhanced g pos (!rs) = 1 := by
  rw [evaluateEnhanced, evaluateEnhanced]
  cases hsm : g.sideToMove pos <;> cases rs <;> simp [hsm] <;> ring

lemma playoutGo_result_range (g : Game) (rng : ℕ → ℚ) (msd : ℕ) (rs : Bool) :
    ∀ (fuel depth : ℕ) (inQ : Bool) (pos : g.Pos)
      (stack : List (g.Pos × ℕ)) (k : ℕ) (v : ℚ), msd - depth ≤ fuel →
      (playoutGo g rng msd rs depth inQ pos stack k).1 = some v →
      0 ≤ v ∧ v ≤ 1 := by
  intro fuel
  induction fuel with
  | zero =>
    intro depth inQ pos stack k v hf hv
    rw [playoutGo] at hv
    have h : ¬ depth < msd := by omega
    rw [dif_neg h] at hv
    exact absurd hv (by simp)
  | succ f ih =>
    intro depth inQ pos stack k v hf hv
    rw [playoutGo] at hv
    by_cases h : depth < msd
    · rw [dif_pos h] at hv
      by_cases hleg : (g.legalMoves pos).isEmpty
      · rw [if_pos hleg] at hv
        have : (if g.inCheck pos then
            (if g.sideToMove pos = rs then (0:ℚ) else 1) else 1/2) = v := by
          simpa using hv
        rw [← this]
        split
        · split
          · norm_num
          · norm_num
        · norm_num
      · rw [if_neg hleg] at hv
        by_cases hq : depth ≥ 20 || inQ
        · rw [if_pos hq] at hv
          cases hbf : (bestForcingGo g pos (g.legalMoves pos) (none, -999999)).1 with
          | none => rw [hbf] at hv; exact absurd hv (by simp)
          | some bm =>
            rw [hbf] at hv
            exact ih (depth + 1) true _ _ k v (by omega) hv
        · rw [if_neg hq] at hv
          exact ih (depth + 1) inQ _ _ (k + 1) v (by omega) hv
    · rw [dif_neg h] at hv
      exact absurd hv (by simp)

/-- C6, amended: the simulation phase returns a score in the closed
interval [0,1] (0 and 1 included, from the clamp and from terminal
positions); the evaluation maps the heuristic value through the linear
clamp `max(0, min(1, 0.5 + v/8000))` — not a logistic — of the
position reached at the end of the playout, and it flips the score to
`1 - p` exactly when the side to move there differs from the reference
side (the side to move at the replayed node). -/
theorem c6_amended (g : Game) (rng : ℕ → ℚ) (msd : ℕ)
    (moves : List (Option ℕ)) (pos : g.Pos) (k : ℕ) (p : g.Pos) (rs : Bool) :
    (0 ≤ (simulateEnhanced g rng msd moves pos k).1
     ∧ (simulateEnhanced g rng msd moves pos k).1 ≤ 1)
    ∧ evaluateEnhanced g p rs + evaluateEnhanced g p (!rs) = 1
    ∧ evaluateEnhanced g p (g.sideToMove p)
        = max 0 (min 1 ((1:ℚ)/2 + ((g.evalHeuristic p : ℤ) : ℚ) / 8000)) := by
  refine ⟨?_, evaluateEnhanced_flip g p rs, ?_⟩
  · rw [simulateEnhanced]
    simp only []
    cases hr : (playoutGo g rng msd (g.sideToMove (applyPath g pos moves).1) 0
        false (applyPath g pos moves).1 (applyPath g pos moves).2 k).1 with
    | none =>
      simpa using evaluateEnhanced_range g _ _
    | some v =>
      simpa using playoutGo_result_range g rng msd _ (msd - 0) 0 false _ _ k v
        le_rfl hr
  · rw [evaluateEnhanced]
    simp

/-!  ## Claim C3: what authorizes a descent during selection -/

/-- A toy game instance with a single legal move `5` everywhere. -/
def gC3 : Game where
  Pos := ℕ
  legalMoves := fun _ => [5]
  doMove := fun p _ => p + 1
  sideToMove := fun p => decide (p % 2 = 0)
  inCheck := fun _ => false
  isCapture := fun _ _ => false
  capturedPiece := fun _ _ => none
  givesCheck := fun _ _ => false
  isPromotion := fun _ _ => false
  see := fun _ _ => 0
  evalHeuristic := fun _ => 0

/-- A root with 100 visits and a single child. -/
def childC3 : MCTSNode := .mk (some 5) 3 0 (1/2) false []

def treeC3 : MCTSNode := .mk none 100 0 1 false [childC3]

lemma bestChildIdx_treeC3 (c : ℝ) : bestChildIdx c treeC3 = some 0 := by
  rw [bestChildIdx]
  rw [show treeC3.children = [childC3] from rfl,
      show treeC3.visits = 100 from rfl]
  rw [bestChildGo, bestChildGo]
  rfl

lemma selectGo_treeC3 (c : ℝ) :
    selectGo gC3 c treeC3 (0:ℕ) []
      = ([0], (1:ℕ), [((0:ℕ), 5)], [(1, 100, 1)]) := by
  have hrec : selectGo gC3 c childC3 (1:ℕ) [((0:ℕ), 5)]
      = ([], (1:ℕ), [((0:ℕ), 5)], []) := by
    rw [selectGo]
    rw [if_pos (show (childC3.isTerminal || childC3.children.isEmpty) = true
      by decide)]
  rw [selectGo]
  rw [if_neg (show ¬ (treeC3.isTerminal || treeC3.children.isEmpty) = true
    by decide)]
  rw [if_pos (show treeC3.children.length ≥ (gC3.legalMoves (0:ℕ)).length
    by decide)]
  rw [bestChildIdx_treeC3]
  show (0 :: (selectGo gC3 c childC3 (1:ℕ) [((0:ℕ), 5)]).1,
        (selectGo gC3 c childC3 (1:ℕ) [((0:ℕ), 5)]).2.1,
        (selectGo gC3 c childC3 (1:ℕ) [((0:ℕ), 5)]).2.2.1,
        ((1:ℕ), (100:ℕ), (1:ℕ))
          :: (selectGo gC3 c childC3 (1:ℕ) [((0:ℕ), 5)]).2.2.2)
      = ([0], (1:ℕ), [((0:ℕ), 5)], [(1, 100, 1)])
  rw [hrec]

lemma select_treeC3 (c : ℝ) :
    select gC3 c treeC3 (0:ℕ) = ([0], (0:ℕ), [(1, 100, 1)]) := by
  rw [select, selectGo_treeC3]
  rfl

/-- C3, counterexample.  On a concrete tree the selection loop descends
from a root with 100 visits and a single child (the position has a
single legal move, so the root is fully expanded): the descent is
recorded with 1 child, 100 visits and 1 legal move, yet the claimed
progressive-widening bound `max(1, ceil(1.8*sqrt(100))) = 18` is far
above the single materialized child, so the claimed precondition for
descending does not hold in the code. -/
theorem c3_counterexample :
    (select gC3 2 treeC3 (0:ℕ)).2.2 = [(1, 100, 1)]
    ∧ ¬ ((1 : ℤ) ≥ wideningBoundSpec 100) := by
  constructor
  · rw [select_treeC3]
  · rw [wideningBoundSpec]
    have hs : Real.sqrt ((100 : ℕ) : ℝ) = 10 := by
      rw [show ((100:ℕ):ℝ) = 10 ^ 2 by norm_num]
      exact Real.sqrt_sq (by norm_num)
    rw [hs]
    rw [show (1.8:ℝ) * 10 = ((18:ℤ):ℝ) by norm_num]
    rw [Int.ceil_intCast]
    norm_num

/-- Every descent the selection loop records is authorized by full
expansion: the node's number of children has reached the number of
legal moves at its position. -/
lemma selectGo_trace_ge (g : Game) (c : ℝ) :
    ∀ (n : ℕ) (node : MCTSNode), sizeOf node ≤ n →
      ∀ (pos : g.Pos) (stack : List (g.Pos × ℕ)) (e : ℕ × ℕ × ℕ),
      e ∈ (selectGo g c node pos stack).2.2.2 → e.1 ≥ e.2.2 := by
  intro n
  induction n with
  | zero =>
    intro node h
    have := MCTSNode.one_le_sizeOf node
    omega
  | succ f ih =>
    intro node h pos stack e he
    rw [selectGo] at he
    by_cases h1 : node.isTerminal || node.children.isEmpty
    · rw [if_pos h1] at he
      simp at he
    · rw [if_neg h1] at he
      by_cases h2 : node.children.length ≥ (g.legalMoves pos).length
      · rw [if_pos h2] at he
        split at he
        · simp at he
        · split at he
          · simp at he
          · rename_i i hb child hc
            split at he
            · rename_i m hm
              have he' : e = (node.children.length, node.visits,
                    (g.legalMoves pos).length)
                  ∨ e ∈ (selectGo g c child (g.doMove pos m)
                    ((pos, m) :: stack)).2.2.2 := by
                simpa using he
              rcases he' with rfl | hmem
              · exact h2
              · have hsz : sizeOf child ≤ f := by
                  have hx := List.sizeOf_lt_of_mem (mem_of_get?_eq_some hc)
                  have hy := MCTSNode.sizeOf_children_lt node
                  omega
                exact ih child hsz _ _ e hmem
            · simp at he
      · rw [if_neg h2] at he
        simp at he

/-- C3, amended: during selection a node is descended into exactly when
its number of materialized children has reached the full legal move
count at its position (`isFullyExpanded`); the code contains no
progressive-widening bound, so every recorded descent satisfies
`children ≥ legalMoveCount` (and in particular nothing relates the
children count to `ceil(1.8*sqrt(visitCount))`). -/
theorem c3_amended (g : Game) (c : ℝ) (root : MCTSNode) (pos : g.Pos)
    (e : ℕ × ℕ × ℕ) (he : e ∈ (select g c root pos).2.2) :
    e.1 ≥ e.2.2 := by
  rw [select] at he
  exact selectGo_trace_ge g c (sizeOf root) root le_rfl pos [] e he

/-- C3, witness for the amended theorem: the concrete descent recorded
above satisfies the full-expansion bound. -/
theorem c3_witness :
    ((1, 100, 1) ∈ (select gC3 2 treeC3 (0:ℕ)).2.2)
    ∧ (1 : ℕ) ≥ 1 :=
  ⟨by rw [select_treeC3]; exact List.mem_singleton.mpr rfl,
   c3_amended gC3 2 treeC3 (0:ℕ) (1, 100, 1)
     (by rw [select_treeC3]; exact List.mem_singleton.mpr rfl)⟩

/-!  ## Claim C7: the final recommendation rule -/

/-- Two root children: one visit with mean 0.5, nine visits with mean
0.35. -/
def childA : MCTSNode := .mk (some 1) 1 (1/2) (1/2) false []

def childB : MCTSNode := .mk (some 2) 9 (63/20) (1/2) false []

def rootC7 : MCTSNode := .mk none 10 0 1 false [childA, childB]

lemma sqrt_nat_nine : Real.sqrt ((9:ℕ):ℝ) = 3 := by
  rw [show ((9:ℕ):ℝ) = 3 ^ 2 by norm_num]
  exact Real.sqrt_sq (by norm_num)

lemma robustScore_childA : robustScore childA = 0.6 := by
  rw [robustScore]
  rw [show childA.totalScore = 1/2 from rfl, show childA.visits = 1 from rfl]
  norm_num [Real.sqrt_one]

lemma robustScore_childB : robustScore childB = 0.65 := by
  rw [robustScore]
  rw [show childB.totalScore = 63/20 from rfl, show childB.visits = 9 from rfl]
  rw [sqrt_nat_nine]
  norm_num

lemma getBestMove_rootC7 : getBestMove rootC7 = some 2 := by
  rw [getBestMove]
  rw [if_neg (show ¬ rootC7.children.isEmpty = true by decide)]
  rw [show rootC7.children = [childA, childB] from rfl]
  rw [getBestGo, getBestGo]
  rw [if_pos (show robustScore childB > robustScore childA by
    rw [robustScore_childA, robustScore_childB]; norm_num)]
  rw [getBestGo]
  rfl

lemma specScore_childA : specScore 100 childA = 0.515 := by
  rw [specScore]
  rw [show childA.totalScore = 1/2 from rfl, show childA.visits = 1 from rfl]
  rw [if_neg (by norm_num)]
  norm_num [Real.sqrt_one]

lemma specScore_childB : specScore 100 childB = 0.395 := by
  rw [specScore]
  rw [show childB.totalScore = 63/20 from rfl, show childB.visits = 9 from rfl]
  rw [if_neg (by norm_num), sqrt_nat_nine]
  norm_num

lemma getBestMoveSpec_rootC7 : getBestMoveSpec 100 rootC7 = some 1 := by
  rw [getBestMoveSpec]
  rw [show rootC7.children = [childA, childB] from rfl]
  rw [getBestMoveSpecGo]
  rw [if_neg (show ¬ childA.visits = 0 by decide)]
  rw [getBestMoveSpecGo]
  rw [if_neg (show ¬ childB.visits = 0 by decide)]
  rw [if_neg (show ¬ specScore 100 childB > specScore 100 childA by
    rw [specScore_childA, specScore_childB]; norm_num)]
  rw [getBestMoveSpecGo]
  rfl

/-- C7, counterexample.  On a concrete pair of root children the code's
rule (`mean + 0.1*sqrt(visits)`) picks the nine-visit child while the
spec's rule (`mean + 0.15*sqrt(visits)/10` with the budget/5 bonus,
zero-visit children skipped) picks the one-visit child, so getBestMove
does not implement the specified maximisation. -/
theorem c7_counterexample :
    getBestMove rootC7 = some 2
    ∧ getBestMoveSpec 100 rootC7 = some 1
    ∧ (2 : ℕ) ≠ 1 := by
  exact ⟨getBestMove_rootC7, getBestMoveSpec_rootC7, by decide⟩

lemma getBestGo_go (l : List MCTSNode) :
    ∀ (b0 : MCTSNode) (s0 : ℝ), s0 = robustScore b0 →
      ∃ bn bs, getBestGo l (some (b0, s0)) = some (bn, bs)
        ∧ bs = robustScore bn
        ∧ (bn = b0 ∨ bn ∈ l)
        ∧ s0 ≤ bs
        ∧ ∀ x ∈ l, robustScore x ≤ bs := by
  induction l with
  | nil =>
    intro b0 s0 h
    exact ⟨b0, s0, rfl, h, Or.inl rfl, le_rfl, by simp⟩
  | cons x xs ih =>
    intro b0 s0 h0
    rw [getBestGo]
    by_cases hx : robustScore x > s0
    · rw [if_pos hx]
      obtain ⟨bn, bs, heq, hbs, hmem, hle, hmax⟩ := ih x (robustScore x) rfl
      refine ⟨bn, bs, heq, hbs, ?_, (le_of_lt hx).trans hle, ?_⟩
      · rcases hmem with rfl | hm
        · exact Or.inr (List.mem_cons_self _ _)
        · exact Or.inr (List.mem_cons_of_mem _ hm)
      · intro y hy
        rcases List.mem_cons.mp hy with rfl | hy'
        · exact hle
        · exact hmax y hy'
    · rw [if_neg hx]
      obtain ⟨bn, bs, heq, hbs, hmem, hle, hmax⟩ := ih b0 s0 h0
      refine ⟨bn, bs, heq, hbs, ?_, hle, ?_⟩
      · rcases hmem with rfl | hm
        · exact Or.inl rfl
        · exact Or.inr (List.mem_cons_of_mem _ hm)
      · intro y hy
        rcases List.mem_cons.mp hy with rfl | hy'
        · exact (le_of_not_lt hx).trans hle
        · exact hmax y hy'

/-- The winner of getBestMove is one of the children and maximises the
robust score. -/
lemma getBestMove_mem (root : MCTSNode) (hne : root.children ≠ []) :
    ∃ bn, bn ∈ root.children ∧ getBestMove root = bn.move
      ∧ ∀ x ∈ root.children, robustScore x ≤ robustScore bn := by
  cases hch : root.children with
  | nil => exact absurd hch hne
  | cons x xs =>
    obtain ⟨bn, bs, heq, hbs, hmem, hle, hmax⟩ := getBestGo_go xs x (robustScore x) rfl
    have hgg : getBestGo root.children none = some (bn, bs) := by
      rw [hch, getBestGo]
      exact heq
    have hbm : getBestMove root = bn.move := by
      rw [getBestMove]
      rw [if_neg (by simp [List.isEmpty_iff, hne])]
      rw [hgg]
    refine ⟨bn, ?_, hbm, ?_⟩
    · rcases hmem with rfl | hm
      · exact List.mem_cons_self _ _
      · exact List.mem_cons_of_mem _ hm
    · intro y hy
      rw [← hbs]
      rcases List.mem_cons.mp hy with rfl | hy'
      · exact hle
      · exact hmax y hy'

/-- C7, amended: the recommended move maximises
`totalScore/max(visits,1) + 0.1*sqrt(visits)` over all root children
with no bonus term; when the children's accumulated scores are
non-negative and a zero-visit child has score 0 (as in every reachable
tree), a zero-visit child is still never selected while a visited child
exists. -/
theorem c7_amended (root : MCTSNode)
    (hv : ∃ ch, ch ∈ root.children ∧ 1 ≤ ch.visits)
    (hzero : ∀ ch ∈ root.children, ch.visits = 0 → ch.totalScore = 0)
    (hnonneg : ∀ ch ∈ root.children, 0 ≤ ch.totalScore) :
    ∃ bn, bn ∈ root.children ∧ getBestMove root = bn.move ∧ 1 ≤ bn.visits
      ∧ ∀ x ∈ root.children, robustScore x ≤ robustScore bn := by
  obtain ⟨w, hw, hwv⟩ := hv
  have hne : root.children ≠ [] := by
    intro h
    rw [h] at hw
    simp at hw
  obtain ⟨bn, hbn, hmove, hmax⟩ := getBestMove_mem root hne
  refine ⟨bn, hbn, hmove, ?_, hmax⟩
  by_contra h0
  have hbv : bn.visits = 0 := by omega
  have hbr : robustScore bn = 0 := by
    rw [robustScore, hzero bn hbn hbv, hbv]
    norm_num [Real.sqrt_zero]
  have hwr : (0.1 : ℝ) ≤ robustScore w := by
    rw [robustScore]
    have h1 : (0:ℝ) ≤ (w.totalScore : ℝ) / ((max w.visits 1 : ℕ) : ℝ) := by
      apply div_nonneg
      · exact_mod_cast hnonneg w hw
      · positivity
    have h2 : (1:ℝ) ≤ Real.sqrt w.visits := by
      rw [show (1:ℝ) = Real.sqrt 1 from (Real.sqrt_one).symm]
      apply Real.sqrt_le_sqrt
      exact_mod_cast hwv
    nlinarith
  have hcontra := hmax w hw
  rw [hbr] at hcontra
  linarith

def childW7 : MCTSNode := .mk (some 4) 2 1 (1/2) false []

def rootW7 : MCTSNode := .mk none 3 0 1 false [childW7]

/-- C7, witness for the amended theorem at a concrete root. -/
theorem c7_witness :
    (∃ ch, ch ∈ rootW7.children ∧ 1 ≤ ch.visits)
    ∧ (∀ ch ∈ rootW7.children, ch.visits = 0 → ch.totalScore = 0)
    ∧ (∀ ch ∈ rootW7.children, 0 ≤ ch.totalScore)
    ∧ ∃ bn, bn ∈ rootW7.children ∧ getBestMove rootW7 = bn.move
        ∧ 1 ≤ bn.visits
        ∧ ∀ x ∈ rootW7.children, robustScore x ≤ robustScore bn := by
  have h1 : ∃ ch, ch ∈ rootW7.children ∧ 1 ≤ ch.visits :=
    ⟨childW7, List.mem_singleton.mpr rfl, by decide⟩
  have h2 : ∀ ch ∈ rootW7.children, ch.visits = 0 → ch.totalScore = 0 := by
    intro ch hch h0
    rw [show rootW7.children = [childW7] from rfl, List.mem_singleton] at hch
    subst hch
    exact absurd h0 (by decide)
  have h3 : ∀ ch ∈ rootW7.children, 0 ≤ ch.totalScore := by
    intro ch hch
    rw [show rootW7.children = [childW7] from rfl, List.mem_singleton] at hch
    subst hch
    norm_num [show childW7.totalScore = 1 from rfl]
  exact ⟨h1, h2, h3, c7_amended rootW7 h1 h2 h3⟩

/-!  ## Claim C4: search returns a legal move -/

lemma updateAt_nil (f : MCTSNode → MCTSNode) (t : MCTSNode) :
    updateAt t [] f = f t := by
  cases t
  rfl

lemma lookup_mem_val : ∀ (mps : List (ℕ × ℚ)) (m : ℕ) (v : ℚ),
    List.lookup m mps = some v → (m, v) ∈ mps := by
  intro mps
  induction mps with
  | nil => intro m v h; simp [List.lookup] at h
  | cons pr rest ih =>
    intro m v h
    obtain ⟨k, w⟩ := pr
    cases he : (m == k) with
    | true =>
      rw [List.lookup, he] at h
      have hk : m = k := by simpa using he
      have hv : w = v := by simpa using h
      subst hk
      subst hv
      exact List.mem_cons_self _ _
    | false =>
      rw [List.lookup, he] at h
      exact List.mem_cons_of_mem _ (ih m v h)

lemma lookupPrior_gt (mps : List (ℕ × ℚ)) (h : ∀ pr ∈ mps, (-1:ℚ) < pr.2)
    (m : ℕ) : (-1:ℚ) < lookupPrior mps m := by
  rw [lookupPrior]
  cases hl : List.lookup m mps with
  | none => norm_num
  | some v => simpa using h (m, v) (lookup_mem_val mps m v hl)

lemma calculateMovePrior_gt (g : Game) (pos : g.Pos) (m : ℕ) :
    (-1:ℚ) < calculateMovePrior g pos m := by
  simp only [calculateMovePrior]
  rw [lt_min_iff]
  have hm : (0:ℚ) ≤ (match g.capturedPiece pos m with
      | some v => (v:ℚ)/3000 | none => 0) := by
    cases g.capturedPiece pos m with
    | none => exact le_rfl
    | some v => positivity
  constructor
  · split_ifs <;> linarith
  · norm_num

lemma bestUnexpandedGo_mem (exist : List (Option ℕ)) (mps : List (ℕ × ℚ)) :
    ∀ (ms : List ℕ) (acc : Option ℕ × ℚ) (m : ℕ),
      (bestUnexpandedGo exist mps ms acc).1 = some m →
      acc.1 = some m ∨ (m ∈ ms ∧ (some m) ∉ exist) := by
  intro ms
  induction ms with
  | nil => intro acc m h; exact Or.inl h
  | cons x xs ih =>
    intro acc m h
    rw [bestUnexpandedGo] at h
    split at h
    · rcases ih acc m h with h' | ⟨h1, h2⟩
      · exact Or.inl h'
      · exact Or.inr ⟨List.mem_cons_of_mem _ h1, h2⟩
    · split at h
      · rename_i hnotin hgt
        rcases ih _ m h with h' | ⟨h1, h2⟩
        · have hxm : x = m := by simpa using h'
          subst hxm
          exact Or.inr ⟨List.mem_cons_self _ _, hnotin⟩
        · exact Or.inr ⟨List.mem_cons_of_mem _ h1, h2⟩
      · rcases ih acc m h with h' | ⟨h1, h2⟩
        · exact Or.inl h'
        · exact Or.inr ⟨List.mem_cons_of_mem _ h1, h2⟩

lemma bestUnexpandedGo_keeps (exist : List (Option ℕ)) (mps : List (ℕ × ℚ)) :
    ∀ (ms : List ℕ) (acc : Option ℕ × ℚ) (x : ℕ), acc.1 = some x →
      ∃ y, (bestUnexpandedGo exist mps ms acc).1 = some y := by
  intro ms
  induction ms with
  | nil => intro acc x hx; exact ⟨x, hx⟩
  | cons m ms' ih =>
    intro acc x hx
    rw [bestUnexpandedGo]
    split
    · exact ih acc x hx
    · split
      · exact ih (some m, lookupPrior mps m) m rfl
      · exact ih acc x hx

lemma bestUnexpandedGo_progress (exist : List (Option ℕ))
    (mps : List (ℕ × ℚ)) :
    ∀ (ms : List ℕ) (acc : Option ℕ × ℚ),
      (∃ m, m ∈ ms ∧ (some m) ∉ exist ∧ acc.2 < lookupPrior mps m) →
      ∃ y, (bestUnexpandedGo exist mps ms acc).1 = some y := by
  intro ms
  induction ms with
  | nil =>
    intro acc h
    obtain ⟨m, hm, _, _⟩ := h
    simp at hm
  | cons m ms' ih =>
    intro acc h
    obtain ⟨m0, hm0, hnot0, hlt0⟩ := h
    rw [bestUnexpandedGo]
    by_cases h1 : (some m) ∈ exist
    · rw [if_pos h1]
      apply ih acc
      rcases List.mem_cons.mp hm0 with rfl | hmem
      · exact absurd h1 hnot0
      · exact ⟨m0, hmem, hnot0, hlt0⟩
    · rw [if_neg h1]
      by_cases h2 : lookupPrior mps m > acc.2
      · rw [if_pos h2]
        exact bestUnexpandedGo_keeps exist mps ms' (some m, lookupPrior mps m)
          m rfl
      · rw [if_neg h2]
        apply ih acc
        rcases List.mem_cons.mp hm0 with rfl | hmem
        · exact absurd hlt0 h2
        · exact ⟨m0, hmem, hnot0, hlt0⟩

lemma select_path_nil (g : Game) (c : ℝ) (node : MCTSNode) (pos : g.Pos)
    (h : node.children = []) : (select g c node pos).1 = [] := by
  rw [select, selectGo]
  rw [if_pos (by simp [h])]

/-- Expansion either leaves the root's child moves unchanged, or — when
the selected node is the root itself — appends one legal move of the
root position. -/
lemma expandWithPrior_childMoves (g : Game) (tree : MCTSNode)
    (path : List ℕ) (pos : g.Pos) (mps : List (ℕ × ℚ)) :
    childMoves (expandWithPrior g tree path pos mps).1 = childMoves tree
    ∨ (path = [] ∧ ∃ m ∈ g.legalMoves pos,
        childMoves (expandWithPrior g tree path pos mps).1
          = childMoves tree ++ [some m]) := by
  rw [expandWithPrior]
  split
  · exact Or.inl rfl
  · rename_i node hnode
    split
    · exact Or.inl rfl
    · split
      · left
        cases path with
        | nil =>
          show childMoves (updateAt tree [] markTerminal) = childMoves tree
          rw [updateAt_nil]
          exact markTerminal_childMoves tree
        | cons i rest =>
          exact updateAt_childMoves markTerminal markTerminal_move i rest tree
      · split
        · rename_i bm bp hbu
          cases path with
          | nil =>
            right
            refine ⟨rfl, bm, ?_, ?_⟩
            · have hm := bestUnexpandedGo_mem (childMoves node) mps _ (none, -1)
                bm (congrArg Prod.fst hbu)
              rcases hm with h' | ⟨h1, _⟩
              · exact absurd h' (by simp)
              · exact h1
            · show childMoves (updateAt tree [] _) = childMoves tree ++ [some bm]
              rw [updateAt_nil]
              simpa [MCTSNode.move] using appendChild_childMoves tree _
          | cons i rest =>
            left
            exact updateAt_childMoves _ (fun x => appendChild_move x _) i rest
              tree
        · exact Or.inl rfl

lemma expandWithPrior_children_length (g : Game) (tree : MCTSNode)
    (path : List ℕ) (pos : g.Pos) (mps : List (ℕ × ℚ)) :
    tree.children.length
      ≤ (expandWithPrior g tree path pos mps).1.children.length := by
  rcases expandWithPrior_childMoves g tree path pos mps with h | ⟨_, m, _, h⟩
  · have := congrArg List.length h
    simp only [childMoves, List.length_map] at this
    omega
  · have := congrArg List.length h
    simp only [childMoves, List.length_map, List.length_append] at this
    omega

lemma expandWithPrior_isTerminal (g : Game) (tree : MCTSNode)
    (path : List ℕ) (pos : g.Pos) (mps : List (ℕ × ℚ))
    (h : ¬ (g.legalMoves pos).isEmpty = true) :
    (expandWithPrior g tree path pos mps).1.isTerminal = tree.isTerminal := by
  rw [expandWithPrior]
  split
  · rfl
  · split
    · rfl
    · split
      · rename_i hleg
        cases path with
        | nil => exact absurd hleg h
        | cons i rest => exact updateAt_ne_nil_isTerminal markTerminal i rest tree
      · split
        · cases path with
          | nil =>
            show (updateAt tree [] _).isTerminal = tree.isTerminal
            rw [updateAt_nil]
            exact appendChild_isTerminal tree _
          | cons i rest => exact updateAt_ne_nil_isTerminal _ i rest tree
        · rfl

/-- Expanding a childless, non-terminal root with at least one legal
move materializes a child. -/
lemma expandWithPrior_first (g : Game) (pos : g.Pos) (tree : MCTSNode)
    (mps : List (ℕ × ℚ))
    (hch : tree.children = []) (hterm : tree.isTerminal = false)
    (hleg : g.legalMoves pos ≠ [])
    (hmps : ∀ pr ∈ mps, (-1:ℚ) < pr.2) :
    (expandWithPrior g tree [] pos mps).1.children ≠ [] := by
  rw [expandWithPrior]
  split
  · rename_i heq
    simp [getNode] at heq
  · rename_i node heq
    have hnode : node = tree := by
      have h' : some tree = some node := by
        rw [getNode] at heq
        exact heq
      exact (Option.some.inj h').symm
    rw [if_neg (show ¬ node.isTerminal = true by rw [hnode, hterm]; simp)]
    rw [if_neg (show ¬ ((g.legalMoves
        (applyPath g pos (pathMoves tree [])).1).isEmpty = true) by
      simpa [pathMoves, applyPath, List.isEmpty_iff] using hleg)]
    split
    · rename_i bm bp hbu
      show (updateAt tree []
        (fun n => appendChild n (MCTSNode.mk (some bm) 0 0 bp
          ((g.legalMoves
            (g.doMove (applyPath g pos (pathMoves tree [])).1 bm)).isEmpty)
          []))).children ≠ []
      rw [updateAt_nil]
      cases tree with
      | mk m v ts ps term ch =>
        simp [appendChild, MCTSNode.children]
    · rename_i q hbu
      exfalso
      obtain ⟨mw, hmw⟩ := List.exists_mem_of_ne_nil _
        (show g.legalMoves (applyPath g pos (pathMoves tree [])).1 ≠ [] by
          simpa [pathMoves, applyPath] using hleg)
      have hprog := bestUnexpandedGo_progress (childMoves node) mps
        (g.legalMoves (applyPath g pos (pathMoves tree [])).1) (none, -1)
        ⟨mw, hmw, by rw [hnode]; simp [childMoves, hch],
         lookupPrior_gt mps hmps mw⟩
      obtain ⟨y, hy⟩ := hprog
      have hy2 : (bestUnexpanded (childMoves node) mps
          (g.legalMoves (applyPath g pos (pathMoves tree [])).1)).1
          = some y := hy
      rw [hbu] at hy2
      simp at hy2

lemma searchIter_tree (g : Game) (c : ℝ) (msd : ℕ) (rng : ℕ → ℚ)
    (mps : List (ℕ × ℚ)) (st : SearchState g) :
    (searchIter g c msd rng mps st).tree
      = backpropagate
          (expandWithPrior g st.tree (select g c st.tree st.pos).1
            (select g c st.tree st.pos).2.1 mps).1
          (expandWithPrior g st.tree (select g c st.tree st.pos).1
            (select g c st.tree st.pos).2.1 mps).2.1
          (simulateEnhanced g rng msd
            (pathMoves
              (expandWithPrior g st.tree (select g c st.tree st.pos).1
                (select g c st.tree st.pos).2.1 mps).1
              (expandWithPrior g st.tree (select g c st.tree st.pos).1
                (select g c st.tree st.pos).2.1 mps).2.1)
            (expandWithPrior g st.tree (select g c st.tree st.pos).1
              (select g c st.tree st.pos).2.1 mps).2.2 st.rk).1 := rfl

lemma searchIter_inv (g : Game) (c : ℝ) (msd : ℕ) (rng : ℕ → ℚ)
    (pos : g.Pos) (mps : List (ℕ × ℚ))
    (hleg : g.legalMoves pos ≠ [])
    (hmps : ∀ pr ∈ mps, (-1:ℚ) < pr.2)
    (st : SearchState g)
    (hpos : st.pos = pos)
    (hterm : st.tree.isTerminal = false)
    (hmov : ∀ om ∈ childMoves st.tree, ∃ m ∈ g.legalMoves pos, om = some m) :
    (searchIter g c msd rng mps st).pos = pos
    ∧ (searchIter g c msd rng mps st).tree.isTerminal = false
    ∧ (∀ om ∈ childMoves (searchIter g c msd rng mps st).tree,
        ∃ m ∈ g.legalMoves pos, om = some m)
    ∧ (searchIter g c msd rng mps st).tree.children ≠ [] := by
  have hselpos : (select g c st.tree st.pos).2.1 = pos := by
    rw [select_pos, hpos]
  have hEmpty : ¬ (g.legalMoves pos).isEmpty = true := by
    simpa [List.isEmpty_iff] using hleg
  refine ⟨by rw [searchIter_pos, hpos], ?_, ?_, ?_⟩
  · rw [searchIter_tree, hselpos, backpropagate_isTerminal,
      expandWithPrior_isTerminal g st.tree _ pos mps hEmpty, hterm]
  · rw [searchIter_tree, hselpos, backpropagate_childMoves]
    rcases expandWithPrior_childMoves g st.tree (select g c st.tree st.pos).1
        pos mps with hsame | ⟨_, m, hm, happ⟩
    · rw [hsame]
      exact hmov
    · rw [happ]
      intro om hom
      rcases List.mem_append.mp hom with h1 | h2
      · exact hmov om h1
      · refine ⟨m, hm, ?_⟩
        simpa using h2
  · rw [searchIter_tree, hselpos]
    have hlen : ∀ (t : MCTSNode) (p : List ℕ) (s : ℚ),
        t.children ≠ [] → (backpropagate t p s).children ≠ [] := by
      intro t p s hne hcon
      have h1 := backpropagate_children_length t p s
      rw [hcon] at h1
      simp at h1
      exact hne (List.length_eq_zero.mp h1.symm)
    by_cases hch : st.tree.children = []
    · have hpath : (select g c st.tree st.pos).1 = [] :=
        select_path_nil g c st.tree st.pos hch
      rw [hpath]
      exact hlen _ _ _
        (expandWithPrior_first g pos st.tree mps hch hterm hleg hmps)
    · apply hlen
      intro hcon
      have h1 := expandWithPrior_children_length g st.tree
        (select g c st.tree st.pos).1 pos mps
      rw [hcon] at h1
      simp at h1
      exact hch h1

lemma searchLoop_inv (g : Game) (c : ℝ) (msd : ℕ) (rng : ℕ → ℚ)
    (pos : g.Pos) (mps : List (ℕ × ℚ))
    (hleg : g.legalMoves pos ≠ [])
    (hmps : ∀ pr ∈ mps, (-1:ℚ) < pr.2) :
    ∀ (n : ℕ) (st : SearchState g), st.pos = pos →
      st.tree.isTerminal = false →
      (∀ om ∈ childMoves st.tree, ∃ m ∈ g.legalMoves pos, om = some m) →
      (∀ om ∈ childMoves (searchLoop g c msd rng mps n st).tree,
          ∃ m ∈ g.legalMoves pos, om = some m)
      ∧ (1 ≤ n → (searchLoop g c msd rng mps n st).tree.children ≠ []) := by
  intro n
  induction n with
  | zero =>
    intro st h1 h2 h3
    exact ⟨h3, by omega⟩
  | succ k ih =>
    intro st h1 h2 h3
    obtain ⟨i1, i2, i3, i4⟩ := searchIter_inv g c msd rng pos mps hleg hmps
      st h1 h2 h3
    have hrec := ih (searchIter g c msd rng mps st) i1 i2 i3
    rw [searchLoop]
    refine ⟨hrec.1, fun _ => ?_⟩
    rcases Nat.eq_zero_or_pos k with rfl | hk
    · simpa [searchLoop] using i4
    · exact hrec.2 hk

/-- C4: for every board with at least one legal move and every
iteration budget of at least one, `search` returns a move that is a
legal move of that board (in particular not the sentinel). -/
theorem c4_search_returns_legal (g : Game) (c : ℝ) (msd : ℕ) (rng : ℕ → ℚ)
    (pos : g.Pos) (budget : ℕ)
    (hleg : g.legalMoves pos ≠ []) (hb : 1 ≤ budget) :
    ∃ m ∈ g.legalMoves pos, (search g c msd rng pos budget).move = some m := by
  have hmps : ∀ pr ∈ (g.legalMoves pos).map
      (fun m => (m, calculateMovePrior g pos m)), (-1:ℚ) < pr.2 := by
    intro pr hpr
    obtain ⟨m, _, rfl⟩ := List.mem_map.mp hpr
    exact calculateMovePrior_gt g pos m
  have hloop := searchLoop_inv g c msd rng pos
    ((g.legalMoves pos).map (fun m => (m, calculateMovePrior g pos m)))
    hleg hmps budget ⟨.mk none 0 0 1 false [], pos, 0⟩ rfl rfl
    (by simp [childMoves, MCTSNode.children])
  obtain ⟨hmov, hne⟩ := hloop
  obtain ⟨bn, hbn, hmove, _⟩ := getBestMove_mem _ (hne hb)
  have hmm : bn.move ∈ childMoves (searchLoop g c msd rng
      ((g.legalMoves pos).map (fun m => (m, calculateMovePrior g pos m)))
      budget ⟨.mk none 0 0 1 false [], pos, 0⟩).tree :=
    List.mem_map_of_mem _ hbn
  obtain ⟨m, hm, hbm⟩ := hmov _ hmm
  refine ⟨m, hm, ?_⟩
  rw [search]
  rw [if_neg (by simpa [List.isEmpty_iff] using hleg)]
  show getBestMove _ = some m
  rw [hmove, hbm]

/-- A one-move toy game instance for concrete witnesses. -/
def gW : Game where
  Pos := ℕ
  legalMoves := fun _ => [7]
  doMove := fun p _ => p + 1
  sideToMove := fun p => decide (p % 2 = 0)
  inCheck := fun _ => false
  isCapture := fun _ _ => false
  capturedPiece := fun _ _ => none
  givesCheck := fun _ _ => false
  isPromotion := fun _ _ => false
  see := fun _ _ => 0
  evalHeuristic := fun _ => 0

/-- C4, witness: the theorem applied to the one-move toy game. -/
theorem c4_witness :
    gW.legalMoves (0:ℕ) ≠ [] ∧ (1:ℕ) ≤ 2
    ∧ ∃ m ∈ gW.legalMoves (0:ℕ),
        (search gW 1 4 (fun _ => 0) (0:ℕ) 2).move = some m :=
  ⟨by decide, by decide,
   c4_search_returns_legal gW 1 4 (fun _ => 0) (0:ℕ) 2 (by decide) (by decide)⟩

/-- C5, witness: the backpropagation facts applied at a concrete tree
and a concrete three-iteration search on the toy game. -/
theorem c5_witness :
    ([0] <+: [0]
     ∧ getNode (MCTSNode.mk none 3 0 1 false
         [MCTSNode.mk (some 7) 1 0 (1/2) false []]) [0]
         = some (MCTSNode.mk (some 7) 1 0 (1/2) false [])
     ∧ ∃ node', getNode (backpropagate (MCTSNode.mk none 3 0 1 false
         [MCTSNode.mk (some 7) 1 0 (1/2) false []]) [0] (1/4)) [0]
         = some node'
         ∧ node'.visits
             = (MCTSNode.mk (some 7) 1 0 (1/2) false []).visits + 1)
    ∧ (gW.legalMoves (0:ℕ) ≠ []
       ∧ (search gW 1 4 (fun _ => 0) (0:ℕ) 3).tree.visits = 3) :=
  ⟨⟨List.prefix_refl [0], rfl,
    c5_backpropagation.2.1 [0] [0] _ _ (1/4) (List.prefix_refl [0]) rfl⟩,
   ⟨by decide, c5_backpropagation.2.2 gW 1 4 (fun _ => 0) (0:ℕ) 3 (by decide)⟩⟩

/-!  ## Claim C1: the MCTS gating predicate -/

/-- C1, counterexample.  The specified gating formula
`(highTal ∨ (aggressive ∧ tactical)) ∧ legalMoveCount > 14` disagrees
with the predicate the code computes in both directions: a sacrificial
position with an exposed own king (aggressive and tactical, not
high-tal) and 15 legal moves satisfies the spec's formula but not the
code's, and a high-tal position with 12 legal moves satisfies the
code's formula but not the spec's. -/
theorem c1_counterexample :
    (let s : StaticShashinState := ⟨true, false, true, false, true, false, true, 15⟩
     let d := updateDynamicState s 22
     mctsApplicableSpec d.isHighTal d.isAggressive d.isTactical s.legalMoveCount = true
       ∧ isMCTSApplicableByValue d s = false)
    ∧
    (let s : StaticShashinState := ⟨true, true, false, true, true, false, true, 12⟩
     let d := updateDynamicState s 22
     mctsApplicableSpec d.isHighTal d.isAggressive d.isTactical s.legalMoveCount = false
       ∧ isMCTSApplicableByValue d s = true) := by
  decide

/-- C1, amended: for every position the code's gating predicate is
`highTal ∧ (pieceCount > 20) ∧ legalMoveCount > 10` (the piece-count
flag `allPiecesCount` holds `pos.count<ALL_PIECES>() > 20`), the
derived `isMCTSApplicable` signal agrees with
`isMCTSApplicableByValue`, and `runMCTSSearch` runs the tree only when
this predicate holds — conjoined with the `useMCTS` option, so the
predicate is necessary but not alone sufficient. -/
theorem c1_amended (s : StaticShashinState) (pc : ℕ) (u : Bool) :
    (isMCTSApplicableByValue (updateDynamicState s pc) s
      = (s.stmKingExposed && s.opponentKingExposed && s.kingDanger
         && s.allPiecesCount && decide (s.legalMoveCount > 10)))
    ∧ ((updateDynamicState s pc).isMCTSApplicable
        = isMCTSApplicableByValue (updateDynamicState s pc) s)
    ∧ (runMCTSGate u (updateDynamicState s pc) s
        ≤ isMCTSApplicableByValue (updateDynamicState s pc) s) := by
  obtain ⟨a, b, sac, kd, hm, pnp, apc, lmc⟩ := s
  refine ⟨?_, ?_, ?_⟩
  · cases a <;> cases b <;> cases kd <;>
      simp [updateDynamicState, isMCTSApplicableByValue]
  · cases a <;> cases b <;> cases kd <;>
      simp [updateDynamicState, isMCTSApplicableByValue]
  · cases u <;> simp [runMCTSGate]

/-!  ## Claim C10: strategical is the complement of aggressive -/

/-- C10: the derived signals satisfy
`isStrategical = NOT isAggressive` (both are computed from the same
four static signals, one as the negated disjunction, the other as the
disjunction), so the `isStrategical ∧ isAggressive` rule of
classifyPosition can never fire and the classifier never returns
CAPABLANCA. -/
theorem c10_strategical_complement (s : StaticShashinState) (pc : ℕ)
    (fortress : Bool) :
    ((updateDynamicState s pc).isStrategical
      = !(updateDynamicState s pc).isAggressive)
    ∧ classifyPosition (updateDynamicState s pc) fortress
        ≠ ShashinStyle.CAPABLANCA := by
  obtain ⟨a, b, sac, kd, hm, pnp, apc, lmc⟩ := s
  constructor
  · cases a <;> cases b <;> cases sac <;> cases kd <;>
      simp [updateDynamicState]
  · cases a <;> cases b <;> cases sac <;> cases kd <;> cases fortress <;>
      simp [updateDynamicState, classifyPosition]

/-!  ## Claim C2: the selection score -/

/-- C2, counterexample.  At exploration constant 0, a node with one
visit, value sum 0 and prior 1 under a parent with one visit scores
`0.1` in the code (flat `priorScore * 0.1` bonus) but `0.29` under the
spec's formula (decaying bonus `max(0.05, 0.3 - n*0.01)`), so the code
does not compute the specified score. -/
theorem c2_counterexample :
    uctScore 0 1 (.mk none 1 0 1 false []) ≠ uctScoreSpec 0 1 1 0 1 := by
  have h1 : uctScore 0 1 (.mk none 1 0 1 false []) = 0.1 := by
    simp [uctScore, MCTSNode.visits, MCTSNode.totalScore, MCTSNode.priorScore]
  have h2 : uctScoreSpec 0 1 1 0 1 = 0.29 := by
    rw [uctScoreSpec]
    rw [show max (0.05 : ℝ) (0.3 - (1 : ℕ) * 0.01) = 0.29 by
      rw [max_eq_right] <;> norm_num]
    norm_num
  rw [h1, h2]
  norm_num

/-- C2, amended: for a node with at least one visit the code's
selection score is
`valueSum/n + explorationConstant * sqrt(log(N)/n) + priorScore * 0.1`
— plain UCT on `log N` (not `log(N+1)`), with no dynamic exploration
scale, no progressive factor, and a flat (non-decaying) prior bonus of
a tenth of the prior. -/
theorem c2_amended (c : ℝ) (N : ℕ) (mv : Option ℕ) (v : ℕ) (ts ps : ℚ)
    (term : Bool) (ch : List MCTSNode) (h : v ≠ 0) :
    uctScore c N (.mk mv v ts ps term ch)
      = (ts : ℝ) / v + c * Real.sqrt (Real.log N / v) + (ps : ℝ) * 0.1 := by
  simp [uctScore, MCTSNode.visits, MCTSNode.totalScore, MCTSNode.priorScore, h]

/-- C2, witness for the amended theorem at a concrete node. -/
theorem c2_witness :
    (1 : ℕ) ≠ 0
    ∧ uctScore 1 2 (.mk none 1 (1/2) (1/2) false [])
        = ((1/2 : ℚ) : ℝ) / (1 : ℕ)
          + 1 * Real.sqrt (Real.log (2 : ℕ) / (1 : ℕ))
          + ((1/2 : ℚ) : ℝ) * 0.1 :=
  ⟨by decide, c2_amended 1 2 none 1 (1/2) (1/2) false [] (by decide)⟩

end Nextfish
